import Mathlib

/-!
Verification of the two algorithmic subsystems of the xodb repository:

* `XodbTools` — the `OrderedDict`/`LRUDict` cache from `xodb/tools/__init__.py`.
* `Geoprint` — the geohash variant from `xodb/tools/geoprint.py`.

Modelling conventions:

* The Python `dict` underlying `OrderedDict` is embedded as an association
  list in insertion order: `d[k] = v` on a present key replaces the value
  in place, on an absent key appends at the end; `dict.pop` removes the
  entry.  The repository is Python 2.5/2.6 code (see `setup.py`), where
  `dict.popitem` is documented to remove "an arbitrary (key, value) pair";
  under no Python version does it consult the auxiliary `_list`.  Two
  embeddings of `dict.popitem` are provided: `dictPopitem` fixes one
  deterministic outcome (the most recently inserted entry, CPython 3.7+
  LIFO) for concrete traces, and `dictPopitemAt` takes the arbitrary
  choice as an explicit index, so that every outcome the Python 2 contract
  permits is the result for some index.  A property of the cache holds of
  the program only if it holds for every such choice; a property is
  refuted by exhibiting one legal choice sequence that breaks it.
* Operations that can raise (`KeyError` from `dict.pop`/`dict.popitem`,
  `ValueError` from `list.remove`) are embedded as `Option`-returning
  functions, `none` marking the raise.
* Python floats are embedded as `ℚ`.  Every float operation performed by
  `geoprint.encode`/`decode`/`adjacent`/`neighbors` on interval endpoints is
  exact in IEEE double arithmetic for the precisions in question (the
  endpoints are dyadic rationals of small height, sums and halvings of which
  round to themselves, and comparisons are exact), so the rational model
  computes the very values the Python code computes.
-/

namespace XodbTools

/-- State of an `LRUDict` instance: the underlying Python `dict` (as an
insertion-ordered association list), the auxiliary order list `self._list`
maintained by `OrderedDict`, and `self.limit`. -/
structure LRUDict (K V : Type) where
  dict : List (K × V)
  list : List K
  limit : Nat
  deriving DecidableEq, Repr

variable {K V : Type} [DecidableEq K]

/-- Python `key in d` / `d[key]` lookup on the underlying dict. -/
def dictGet : List (K × V) → K → Option V
  | [], _ => none
  | (k', v) :: rest, k => if k = k' then some v else dictGet rest k

/-- Python `dict.__setitem__`: replace in place if the key is present,
otherwise append at the end (insertion order). -/
def dictSet : List (K × V) → K → V → List (K × V)
  | [], k, v => [(k, v)]
  | (k', v') :: rest, k, v =>
      if k = k' then (k, v) :: rest else (k', v') :: dictSet rest k v

/-- Python `dict.pop(d, key)` with no default: removes the entry and returns
its value, or raises `KeyError` (`none`) if absent. -/
def dictPop : List (K × V) → K → Option (V × List (K × V))
  | [], _ => none
  | (k', v) :: rest, k =>
      if k = k' then some (v, rest)
      else (dictPop rest k).map fun p => (p.1, (k', v) :: p.2)

/-- Python `dict.popitem(d)`, one fixed outcome: removes and returns the
most recently inserted entry (the last one in insertion order — the CPython
3.7+ LIFO behavior), or raises `KeyError` (`none`) on an empty dict.  On
Python 2, which this repository targets, `dict.popitem` is documented only
as returning an arbitrary pair; this determinization is one legal outcome,
used for concrete traces.  `dictPopitemAt` below quantifies over all legal
outcomes. -/
def dictPopitem : List (K × V) → Option ((K × V) × List (K × V))
  | [] => none
  | [p] => some (p, [])
  | p :: q :: rest =>
      (dictPopitem (q :: rest)).map fun r => (r.1, p :: r.2)

/-- Python 2 `dict.popitem(d)` under its documented contract — "removes
and returns an arbitrary (key, value) pair" (which pair actually comes
back on CPython 2.5/2.6 depends on the hash-table slot layout and the
internal search finger): the arbitrary choice is made explicit as the
index of the removed entry, so every outcome the contract permits is the
result for some `idx < d.length`; an empty dict raises `KeyError`
(`none`). -/
def dictPopitemAt : List (K × V) → Nat → Option ((K × V) × List (K × V))
  | [], _ => none
  | p :: rest, 0 => some (p, rest)
  | p :: rest, idx + 1 =>
      (dictPopitemAt rest idx).map fun r => (r.1, p :: r.2)

/-- Python `list.remove(x)`: removes the first occurrence, or raises
`ValueError` (`none`) if absent. -/
def listRemove : List K → K → Option (List K)
  | [], _ => none
  | k' :: rest, k =>
      if k = k' then some rest
      else (listRemove rest k).map fun l => k' :: l

namespace LRUDict

/-- `OrderedDict.__setitem__`: if the key is not in the dict, append it to
`self._list`; then `dict.__setitem__`. -/
def odSetitem (s : LRUDict K V) (k : K) (v : V) : LRUDict K V :=
  { s with
    list := if (dictGet s.dict k).isSome then s.list else s.list ++ [k]
    dict := dictSet s.dict k v }

/-- `OrderedDict.popitem`: `item = dict.popitem(self)` followed by
`self._list.remove(item[0])`. -/
def popitem (s : LRUDict K V) : Option ((K × V) × LRUDict K V) :=
  (dictPopitem s.dict).bind fun r =>
    (listRemove s.list r.1.1).map fun l' =>
      (r.1, { s with dict := r.2, list := l' })

/-- `OrderedDict.__delitem__`: `dict.__delitem__` (raises `KeyError` if the
key is absent) then `self._list.remove(key)`. -/
def delitem (s : LRUDict K V) (k : K) : Option (LRUDict K V) :=
  (dictPop s.dict k).bind fun r =>
    (listRemove s.list k).map fun l' =>
      { s with dict := r.2, list := l' }

/-- `LRUDict.__setitem__`: if `len(self) >= self.limit`, call
`self.popitem()` (discarding the result) before the ordinary
`OrderedDict.__setitem__`. -/
def setitem (s : LRUDict K V) (k : K) (v : V) : Option (LRUDict K V) :=
  if s.dict.length ≥ s.limit then
    (popitem s).map fun r => odSetitem r.2 k v
  else
    some (odSetitem s k v)

/-- `OrderedDict.popitem` with the Python 2 arbitrary `dict.popitem`
choice made explicit as an index. -/
def popitemAt (s : LRUDict K V) (idx : Nat) : Option ((K × V) × LRUDict K V) :=
  (dictPopitemAt s.dict idx).bind fun r =>
    (listRemove s.list r.1.1).map fun l' =>
      (r.1, { s with dict := r.2, list := l' })

/-- `LRUDict.__setitem__` with the Python 2 arbitrary `dict.popitem`
choice (taken when the eviction branch fires) made explicit as an index;
when the cache is below its limit no eviction happens and the index is
irrelevant. -/
def setitemAt (s : LRUDict K V) (k : K) (v : V) (idx : Nat) :
    Option (LRUDict K V) :=
  if s.dict.length ≥ s.limit then
    (popitemAt s idx).map fun r => odSetitem r.2 k v
  else
    some (odSetitem s k v)

/-- `LRUDict.__getitem__`: `item = dict.pop(self, key)` (raising `KeyError`
on a miss), then `self[key] = item` (re-entering `LRUDict.__setitem__`),
then return `item`. -/
def getitem (s : LRUDict K V) (k : K) : Option (V × LRUDict K V) :=
  (dictPop s.dict k).bind fun r =>
    (setitem { s with dict := r.2 } k r.1).map fun s' => (r.1, s')

/-- `LRUDict.get`: `self[key]` with the `KeyError` caught and turned into
the default.  (The model folds the exceptions raised inside the re-insert
into the same `none`; with a positive limit and a well-formed state the
re-insert never raises, so on that domain the model agrees with the code.) -/
def get (s : LRUDict K V) (k : K) (default : V) : V × LRUDict K V :=
  match getitem s k with
  | some (v, s') => (v, s')
  | none => (default, s)

/-- Well-formedness of a cache state, as the spec's data-model invariants
state it: keys are unique within the underlying dict, and every key of the
dict occurs in the auxiliary order list. -/
def wf (s : LRUDict K V) : Prop :=
  (s.dict.map Prod.fst).Nodup ∧ ∀ p ∈ s.dict, p.1 ∈ s.list

instance (s : LRUDict K V) : Decidable (wf s) := by
  unfold wf; infer_instance

end LRUDict

end XodbTools

namespace Geoprint

/-- The `interval` namedtuple of `geoprint.py`. -/
structure interval where
  min : ℚ
  max : ℚ
  deriving DecidableEq, Repr

/-- `alphabet = 'gatc'`. -/
def alphabet : List Char := ['g', 'a', 't', 'c']

/-- `decodemap = dict((k, i) for (i, k) in enumerate(alphabet))`; lookup of a
character not in the alphabet raises `KeyError` (`none`). -/
def decodemap (c : Char) : Option Nat :=
  if c = 'g' then some 0
  else if c = 'a' then some 1
  else if c = 't' then some 2
  else if c = 'c' then some 3
  else none

/-- The body of `encode`'s `while len(geoprint) < precision` loop, run
`fuel` times: at each step bisect the longitude interval (setting bit 2 of
`ch` when `longitude > mid`) and the latitude interval (setting bit 1 when
`latitude > mid`), and append `alphabet[ch]`.  `ch` is always `< 4`, so the
`getD` default is never consulted. -/
def encodeAux (latitude longitude : ℚ) (loni lati : interval) : Nat → List Char
  | 0 => []
  | fuel + 1 =>
    let midLon := (loni.min + loni.max) / 2
    let chLon : Nat := if longitude > midLon then 2 else 0
    let loni' : interval :=
      if longitude > midLon then ⟨midLon, loni.max⟩ else ⟨loni.min, midLon⟩
    let midLat := (lati.min + lati.max) / 2
    let chLat : Nat := if latitude > midLat then 1 else 0
    let lati' : interval :=
      if latitude > midLat then ⟨midLat, lati.max⟩ else ⟨lati.min, midLat⟩
    alphabet.getD (chLon + chLat) ' ' :: encodeAux latitude longitude loni' lati' fuel

/-- `geoprint.encode` (degrees path, string result): the hemisphere marker
`'w'`/`'e'` chooses the initial longitude interval, then the bisection loop
runs until the code has `precision` characters (so `precision - 1` times;
for `precision = 0` the Python loop also does not run and the result is the
single marker character). -/
def encode (latitude longitude : ℚ) (precision : Nat) : List Char :=
  if longitude < 0 then
    'w' :: encodeAux latitude longitude ⟨-180, 0⟩ ⟨-90, 90⟩ (precision - 1)
  else
    'e' :: encodeAux latitude longitude ⟨0, 180⟩ ⟨-90, 90⟩ (precision - 1)

/-- The `for c in geoprint` loop of `decode`: each character is looked up in
`decodemap` (raising `KeyError`/`none` on a foreign character) and its two
bits narrow the longitude and latitude intervals. -/
def decodeAux (loni lati : interval) : List Char → Option (interval × interval)
  | [] => some (loni, lati)
  | c :: rest =>
    (decodemap c).bind fun cd =>
      let loni' : interval :=
        if cd &&& 2 ≠ 0 then ⟨(loni.min + loni.max) / 2, loni.max⟩
        else ⟨loni.min, (loni.min + loni.max) / 2⟩
      let lati' : interval :=
        if cd &&& 1 ≠ 0 then ⟨(lati.min + lati.max) / 2, lati.max⟩
        else ⟨lati.min, (lati.min + lati.max) / 2⟩
      decodeAux loni' lati' rest

/-- `geoprint.decode` up to its final intervals: `geoprint[0]` restores the
initial longitude interval (an empty string raises `IndexError`, and a first
character other than `'w'`/`'e'` leaves `loni` unbound, so the first use of
`loni` raises `UnboundLocalError`; both raises are `none`). -/
def decodeIvls (geoprint : List Char) : Option (interval × interval) :=
  match geoprint with
  | [] => none
  | first :: rest =>
    if first = 'w' then decodeAux ⟨-180, 0⟩ ⟨-90, 90⟩ rest
    else if first = 'e' then decodeAux ⟨0, 180⟩ ⟨-90, 90⟩ rest
    else none

/-- `geoprint.decode` (degrees path, point result): the midpoints of the
final latitude and longitude intervals, returned as `(lat, lon)`. -/
def decode (geoprint : List Char) : Option (ℚ × ℚ) :=
  (decodeIvls geoprint).map fun (loni, lati) =>
    ((lati.min + lati.max) / 2, (loni.min + loni.max) / 2)

/-- `geoprint.error` (degrees path): `90.0 * pow(2, neg(len(geoprint) - 1))`.
The exponent is computed in `ℤ`, matching Python's `int` arithmetic. -/
def error (geoprint : List Char) : ℚ :=
  90 * (2 : ℚ) ^ (-((geoprint.length : ℤ) - 1))

/-- Outcome of `geoprint.adjacent`: a returned boolean, the `TypeError`s
raised for bad precision, or the `KeyError` a foreign character raises
inside `decode`. -/
inductive AdjacentResult where
  | returns (b : Bool)
  | raisesPrecisionMismatch
  | raisesKeyError
  deriving DecidableEq, Repr

/-- `geoprint.adjacent`, in source order: the `first == second` early return
precedes both precision checks; then the decoded centers are compared
against `spacing = 180 / 2.0 ** (precision - 1)` with exact equality. -/
def adjacent (first second : List Char) : AdjacentResult :=
  if first = second then .returns false
  else if min first.length second.length < 3 then .raisesPrecisionMismatch
  else if first.length ≠ second.length then .raisesPrecisionMismatch
  else
    match decode first, decode second with
    | some (lat1, lng1), some (lat2, lng2) =>
      let precision := first.length
      let spacing : ℚ := 180 / (2 : ℚ) ^ ((precision : ℤ) - 1)
      .returns (decide ((|lat1 - lat2| = spacing ∧ lng1 = lng2) ∨
        (|lng1 - lng2| = spacing ∧ lat1 = lat2) ∨
        (|lat1 - lat2| = spacing ∧ |lng1 - lng2| = spacing)))
    | _, _ => .raisesKeyError

/-- `geoprint.neighbors` (with its default `bearing=True`, `box=False`):
decode the center, then re-encode the eight offset points at the same
precision, labelling them in the loop's enumeration order.  The Python
`set` of labelled pairs is modelled as the list of pairs in insertion
order (the labels make the eight pairs distinct, so membership agrees). -/
def neighbors (geoprint : List Char) : Option (List (String × List Char)) :=
  (decode geoprint).map fun ctr =>
    let precision := geoprint.length
    let spacing : ℚ := 180 / (2 : ℚ) ^ ((precision : ℤ) - 1)
    [("N", encode (ctr.1 + 0 * spacing) (ctr.2 + 1 * spacing) precision),
     ("S", encode (ctr.1 + 0 * spacing) (ctr.2 + (-1) * spacing) precision),
     ("E", encode (ctr.1 + 1 * spacing) (ctr.2 + 0 * spacing) precision),
     ("NE", encode (ctr.1 + 1 * spacing) (ctr.2 + 1 * spacing) precision),
     ("SE", encode (ctr.1 + 1 * spacing) (ctr.2 + (-1) * spacing) precision),
     ("W", encode (ctr.1 + (-1) * spacing) (ctr.2 + 0 * spacing) precision),
     ("NW", encode (ctr.1 + (-1) * spacing) (ctr.2 + 1 * spacing) precision),
     ("SW", encode (ctr.1 + (-1) * spacing) (ctr.2 + (-1) * spacing) precision)]

/-! Proof helpers: `encode`/`decode` act on the two axes independently; the
following single-axis view of the bisection drives all interval lemmas. -/

/-- One bisection step on a single axis; `true` picks the upper half. -/
def narrow (iv : interval) (b : Bool) : interval :=
  if b then ⟨(iv.min + iv.max) / 2, iv.max⟩
  else ⟨iv.min, (iv.min + iv.max) / 2⟩

/-- Iterated bisection along a list of branch choices. -/
def narrows (iv : interval) (bs : List Bool) : interval :=
  bs.foldl narrow iv

/-- The branch choices `encode`'s loop makes for one axis and point `p`. -/
def encBits (p : ℚ) (iv : interval) : Nat → List Bool
  | 0 => []
  | n + 1 =>
    let b := decide (p > (iv.min + iv.max) / 2)
    b :: encBits p (narrow iv b) n

/-- The character `encode` emits for one longitude bit and one latitude
bit. -/
def chr (b2 b1 : Bool) : Char :=
  alphabet.getD ((if b2 then 2 else 0) + (if b1 then 1 else 0)) ' '

/-- Zip the two axes' branch choices into the emitted code characters. -/
def zipChars : List Bool → List Bool → List Char :=
  List.zipWith chr

/-- Midpoint of an interval, as `decode` computes the returned point. -/
def midpt (iv : interval) : ℚ :=
  (iv.min + iv.max) / 2

/-- The initial longitude interval `encode`/`decode` use, by hemisphere. -/
def lonStart (longitude : ℚ) : interval :=
  if longitude < 0 then ⟨-180, 0⟩ else ⟨0, 180⟩

end Geoprint

/-! ## Lemmas about the cache model -/

namespace XodbTools

variable {K V : Type} [DecidableEq K]

theorem dictGet_dictSet_self (d : List (K × V)) (k : K) (v : V) :
    dictGet (dictSet d k v) k = some v := by
  induction d with
  | nil => simp [dictSet, dictGet]
  | cons p rest ih =>
    by_cases h : k = p.1 <;> simp [dictSet, dictGet, h, ih]

theorem length_dictSet_present (d : List (K × V)) (k : K) (v : V)
    (h : (dictGet d k).isSome) : (dictSet d k v).length = d.length := by
  induction d with
  | nil => simp [dictGet] at h
  | cons p rest ih =>
    by_cases hk : k = p.1
    · simp [dictSet, hk]
    · simp only [dictGet, hk, if_false] at h
      simp [dictSet, hk, ih h]

theorem dictSet_absent (d : List (K × V)) (k : K) (v : V)
    (h : dictGet d k = none) : dictSet d k v = d ++ [(k, v)] := by
  induction d with
  | nil => simp [dictSet]
  | cons p rest ih =>
    by_cases hk : k = p.1
    · simp [dictGet, hk] at h
    · simp only [dictGet, hk, if_false] at h
      simp [dictSet, hk, ih h]

theorem dictGet_eq_none_of_not_mem_keys (d : List (K × V)) (k : K)
    (h : k ∉ d.map Prod.fst) : dictGet d k = none := by
  induction d with
  | nil => rfl
  | cons p rest ih =>
    simp only [List.map_cons, List.mem_cons, not_or] at h
    simp [dictGet, h.1, ih h.2]

theorem dictGet_isSome_of_mem_keys {d : List (K × V)} {k : K}
    (h : k ∈ d.map Prod.fst) : (dictGet d k).isSome := by
  induction d with
  | nil => simp at h
  | cons p rest ih =>
    by_cases hk : k = p.1
    · simp [dictGet, hk]
    · simp only [List.map_cons, List.mem_cons, hk, false_or] at h
      simp [dictGet, hk, ih h]

theorem dictGet_some_mem {d : List (K × V)} {k : K} {v : V}
    (h : dictGet d k = some v) : (k, v) ∈ d := by
  induction d with
  | nil => simp [dictGet] at h
  | cons p rest ih =>
    by_cases hk : k = p.1
    · simp only [dictGet, hk, if_true, Option.some.injEq] at h
      subst hk; subst h; exact List.mem_cons_self _ _
    · simp only [dictGet, hk, if_false] at h
      exact List.mem_cons_of_mem _ (ih h)

theorem mem_dictSet {d : List (K × V)} {k : K} {v : V} {p : K × V}
    (h : p ∈ dictSet d k v) : p.1 = k ∨ p ∈ d := by
  induction d with
  | nil => simp [dictSet] at h; simp [h]
  | cons q rest ih =>
    by_cases hk : k = q.1
    · simp only [dictSet, hk, if_true, List.mem_cons] at h
      rcases h with h | h
      · left; rw [h]; exact hk.symm
      · right; exact List.mem_cons_of_mem _ h
    · simp only [dictSet, hk, if_false, List.mem_cons] at h
      rcases h with h | h
      · right; simp [h]
      · rcases ih h with h' | h'
        · left; exact h'
        · right; exact List.mem_cons_of_mem _ h'

theorem keys_dictSet_present (d : List (K × V)) (k : K) (v : V)
    (h : (dictGet d k).isSome) :
    (dictSet d k v).map Prod.fst = d.map Prod.fst := by
  induction d with
  | nil => simp [dictGet] at h
  | cons p rest ih =>
    by_cases hk : k = p.1
    · simp [dictSet, hk]
    · simp only [dictGet, hk, if_false] at h
      simp [dictSet, hk, ih h]

theorem dictPop_present {d : List (K × V)} {k : K} {v : V}
    (h : dictGet d k = some v) :
    ∃ d', dictPop d k = some (v, d') ∧ d'.length + 1 = d.length := by
  induction d with
  | nil => simp [dictGet] at h
  | cons p rest ih =>
    by_cases hk : k = p.1
    · simp only [dictGet, hk, if_true, Option.some.injEq] at h
      exact ⟨rest, by simp [dictPop, hk, h], by simp⟩
    · simp only [dictGet, hk, if_false] at h
      obtain ⟨d', hd', hlen⟩ := ih h
      exact ⟨p :: d', by simp [dictPop, hk, hd'], by simp [← hlen]⟩

theorem dictPopitem_append (d₀ : List (K × V)) (p : K × V) :
    dictPopitem (d₀ ++ [p]) = some (p, d₀) := by
  induction d₀ with
  | nil => rfl
  | cons a t ih =>
    cases t with
    | nil => rfl
    | cons b t' =>
      simpa [dictPopitem] using congrArg (Option.map fun r => (r.1, a :: r.2)) ih

theorem dictPopitem_eq_append {d d' : List (K × V)} {p : K × V}
    (h : dictPopitem d = some (p, d')) : d = d' ++ [p] := by
  induction d generalizing d' with
  | nil => simp [dictPopitem] at h
  | cons a t ih =>
    cases t with
    | nil =>
      simp only [dictPopitem, Option.some.injEq, Prod.mk.injEq] at h
      simp [← h.1, ← h.2]
    | cons b t' =>
      simp only [dictPopitem, Option.map_eq_some', Prod.mk.injEq] at h
      obtain ⟨⟨q, r⟩, hqr, hq, hr⟩ := h
      subst hq; subst hr
      simpa using congrArg (List.cons a) (ih hqr)

theorem listRemove_of_mem {l : List K} {a : K} (h : a ∈ l) :
    ∃ l', listRemove l a = some l' := by
  induction l with
  | nil => simp at h
  | cons b t ih =>
    by_cases hb : a = b
    · exact ⟨t, by simp [listRemove, hb]⟩
    · obtain ⟨l', hl'⟩ := ih (by simpa [hb] using h)
      exact ⟨b :: l', by simp [listRemove, hb, hl']⟩

theorem mem_of_listRemove {l l' : List K} {a b : K}
    (h : listRemove l b = some l') (ha : a ∈ l) (hne : a ≠ b) : a ∈ l' := by
  induction l generalizing l' with
  | nil => simp [listRemove] at h
  | cons c t ih =>
    by_cases hb : b = c
    · simp only [listRemove, hb, if_true, Option.some.injEq] at h
      subst h
      rcases List.mem_cons.mp ha with h' | h'
      · exact absurd (h' ▸ hb.symm) (by simpa [h'] using hne)
      · exact h'
    · simp only [listRemove, hb, if_false, Option.map_eq_some'] at h
      obtain ⟨t', ht', h'⟩ := h
      subst h'
      rcases List.mem_cons.mp ha with h' | h'
      · exact h' ▸ List.mem_cons_self _ _
      · exact List.mem_cons_of_mem _ (ih ht' h')

namespace LRUDict

theorem odSetitem_dict (s : LRUDict K V) (k : K) (v : V) :
    (odSetitem s k v).dict = dictSet s.dict k v := rfl

theorem odSetitem_limit (s : LRUDict K V) (k : K) (v : V) :
    (odSetitem s k v).limit = s.limit := rfl

theorem popitem_eq {s : LRUDict K V} {p : K × V} {t : LRUDict K V}
    (h : popitem s = some (p, t)) :
    s.dict = t.dict ++ [p] ∧ listRemove s.list p.1 = some t.list ∧
      t.limit = s.limit := by
  unfold popitem at h
  rcases hb : dictPopitem s.dict with _ | r <;> rw [hb] at h
  · simp at h
  · rcases hc : listRemove s.list r.1.1 with _ | l' <;>
      rw [Option.some_bind, hc] at h
    · simp at h
    · simp only [Option.map_some', Option.some.injEq, Prod.mk.injEq] at h
      obtain ⟨h1, h2⟩ := h
      subst h1
      refine ⟨?_, ?_, by rw [← h2]⟩
      · rw [← h2]; exact dictPopitem_eq_append hb
      · rw [← h2]; exact hc

theorem popitem_some {s : LRUDict K V} (hwf : wf s) (hne : s.dict ≠ []) :
    ∃ p t, popitem s = some (p, t) := by
  have hd := (List.dropLast_append_getLast hne).symm
  have hpop : dictPopitem s.dict = some (s.dict.getLast hne, s.dict.dropLast) := by
    conv in dictPopitem _ => rw [hd]
    exact dictPopitem_append _ _
  have hpmem : s.dict.getLast hne ∈ s.dict := List.getLast_mem hne
  obtain ⟨l', hl'⟩ := listRemove_of_mem (hwf.2 _ hpmem)
  exact ⟨_, _, by rw [popitem, hpop, Option.some_bind, hl', Option.map_some']⟩

theorem setitem_some {s : LRUDict K V} (k : K) (v : V)
    (hwf : wf s) (hlim : 1 ≤ s.limit) :
    ∃ s', setitem s k v = some s' := by
  unfold setitem
  by_cases hge : s.dict.length ≥ s.limit
  · have hne : s.dict ≠ [] := by
      intro h
      rw [h] at hge
      simp only [List.length_nil, ge_iff_le, Nat.le_zero] at hge
      omega
    obtain ⟨p, t, hpop⟩ := popitem_some hwf hne
    rw [if_pos hge, hpop]
    exact ⟨_, rfl⟩
  · rw [if_neg hge]
    exact ⟨_, rfl⟩

theorem setitem_elim {s s' : LRUDict K V} {k : K} {v : V}
    (h : setitem s k v = some s') :
    (¬ s.dict.length ≥ s.limit ∧ s' = odSetitem s k v) ∨
      (s.dict.length ≥ s.limit ∧
        ∃ p t, popitem s = some (p, t) ∧ s' = odSetitem t k v) := by
  unfold setitem at h
  by_cases hge : s.dict.length ≥ s.limit
  · rw [if_pos hge, Option.map_eq_some'] at h
    obtain ⟨r, hpop, h'⟩ := h
    exact Or.inr ⟨hge, r.1, r.2, hpop, h'.symm⟩
  · rw [if_neg hge, Option.some.injEq] at h
    exact Or.inl ⟨hge, h.symm⟩

theorem setitem_limit {s s' : LRUDict K V} {k : K} {v : V}
    (h : setitem s k v = some s') : s'.limit = s.limit := by
  rcases setitem_elim h with ⟨_, h'⟩ | ⟨_, p, t, hpop, h'⟩
  · rw [h', odSetitem_limit]
  · rw [h', odSetitem_limit, (popitem_eq hpop).2.2]

theorem setitem_dictGet {s s' : LRUDict K V} {k : K} {v : V}
    (h : setitem s k v = some s') : dictGet s'.dict k = some v := by
  rcases setitem_elim h with ⟨_, h'⟩ | ⟨_, p, t, hpop, h'⟩ <;>
    rw [h', odSetitem_dict] <;> exact dictGet_dictSet_self _ _ _

theorem length_odSetitem_le (s : LRUDict K V) (k : K) (v : V) :
    (odSetitem s k v).dict.length ≤ s.dict.length + 1 := by
  rw [odSetitem_dict]
  by_cases h : (dictGet s.dict k).isSome
  · rw [length_dictSet_present _ _ _ h]; omega
  · rw [dictSet_absent _ _ _ (by simpa using h)]; simp

theorem setitem_length_le {s s' : LRUDict K V} {k : K} {v : V}
    (h : setitem s k v = some s') (hlen : s.dict.length ≤ s.limit)
    (hlim : 1 ≤ s.limit) : s'.dict.length ≤ s.limit := by
  rcases setitem_elim h with ⟨hlt, h'⟩ | ⟨hge, p, t, hpop, h'⟩
  · have := length_odSetitem_le s k v
    rw [← h'] at this
    omega
  · have hshape := (popitem_eq hpop).1
    have hlt : t.dict.length + 1 = s.dict.length := by rw [hshape]; simp
    have := length_odSetitem_le t k v
    rw [← h'] at this
    omega

theorem odSetitem_wf {u : LRUDict K V} (k : K) (v : V) (hu : wf u) :
    wf (odSetitem u k v) := by
  have hdict : (odSetitem u k v).dict = dictSet u.dict k v := rfl
  have hlist : (odSetitem u k v).list =
      if (dictGet u.dict k).isSome then u.list else u.list ++ [k] := rfl
  constructor
  · rw [hdict]
    by_cases hp : (dictGet u.dict k).isSome
    · rw [keys_dictSet_present _ _ _ hp]; exact hu.1
    · rw [dictSet_absent _ _ _ (Option.not_isSome_iff_eq_none.mp hp)]
      simp only [List.map_append, List.map_cons, List.map_nil]
      rw [List.nodup_append]
      refine ⟨hu.1, List.nodup_singleton _, ?_⟩
      intro a ha hb
      simp only [List.mem_cons, List.not_mem_nil, or_false] at hb
      subst hb
      exact hp (dictGet_isSome_of_mem_keys ha)
  · intro p hp
    rw [hdict] at hp
    rw [hlist]
    rcases mem_dictSet hp with h1 | h1
    · by_cases hg : (dictGet u.dict k).isSome
      · obtain ⟨w, hw⟩ := Option.isSome_iff_exists.mp hg
        rw [if_pos hg, h1]
        exact hu.2 _ (dictGet_some_mem hw)
      · rw [if_neg hg, h1]
        exact List.mem_append_right _ (by simp)
    · by_cases hg : (dictGet u.dict k).isSome
      · rw [if_pos hg]; exact hu.2 p h1
      · rw [if_neg hg]; exact List.mem_append_left _ (hu.2 p h1)

theorem setitem_wf {s s' : LRUDict K V} {k : K} {v : V}
    (hwf : wf s) (h : setitem s k v = some s') : wf s' := by
  rcases setitem_elim h with ⟨_, h'⟩ | ⟨_, p, t, hpop, h'⟩
  · exact h' ▸ odSetitem_wf k v hwf
  · obtain ⟨hshape, hrem, _⟩ := popitem_eq hpop
    refine h' ▸ odSetitem_wf k v ⟨?_, ?_⟩
    · have := hwf.1
      rw [hshape] at this
      simp only [List.map_append, List.nodup_append] at this
      exact this.1
    · intro q hq
      have hqs : q ∈ s.dict := by rw [hshape]; exact List.mem_append_left _ hq
      have hnodup := hwf.1
      rw [hshape] at hnodup
      simp only [List.map_append, List.map_cons, List.map_nil,
        List.nodup_append] at hnodup
      have hne : q.1 ≠ p.1 := by
        intro he
        exact hnodup.2.2 (List.mem_map_of_mem _ hq) (by simp [he])
      exact mem_of_listRemove hrem (hwf.2 q hqs) hne

theorem setitem_shape_of_full {s s' : LRUDict K V} {k : K} {v : V}
    (h : setitem s k v = some s') (hlen : s.dict.length ≤ s.limit)
    (hlim : 1 ≤ s.limit) (hfull : s'.dict.length = s.limit) :
    ∃ d₀, s'.dict = d₀ ++ [(k, v)] := by
  rcases setitem_elim h with ⟨hlt, h'⟩ | ⟨hge, p, t, hpop, h'⟩
  · rw [h', odSetitem_dict]
    by_cases hp : (dictGet s.dict k).isSome
    · exfalso
      rw [h', odSetitem_dict, length_dictSet_present _ _ _ hp] at hfull
      omega
    · exact ⟨s.dict,
        by rw [dictSet_absent _ _ _ (Option.not_isSome_iff_eq_none.mp hp)]⟩
  · have hshape := (popitem_eq hpop).1
    have hlt' : t.dict.length + 1 = s.dict.length := by rw [hshape]; simp
    rw [h', odSetitem_dict]
    by_cases hp : (dictGet t.dict k).isSome
    · exfalso
      rw [h', odSetitem_dict, length_dictSet_present _ _ _ hp] at hfull
      omega
    · exact ⟨t.dict,
        by rw [dictSet_absent _ _ _ (Option.not_isSome_iff_eq_none.mp hp)]⟩

theorem dictGet_append_last (d₀ : List (K × V)) (k : K) (v : V)
    (h : k ∉ d₀.map Prod.fst) : dictGet (d₀ ++ [(k, v)]) k = some v := by
  induction d₀ with
  | nil => simp [dictGet]
  | cons p rest ih =>
    simp only [List.map_cons, List.mem_cons, not_or] at h
    simp only [List.cons_append, dictGet, h.1, if_false]
    exact ih h.2

/-- Replacing `put` on a state whose `dict` ends with the given key keeps
the number of entries: the eviction (if any) pops that very key. -/
theorem setitem_length_of_last {s s' : LRUDict K V} {k : K} {v v' : V}
    {d₀ : List (K × V)} (hd : s.dict = d₀ ++ [(k, v)])
    (hnodup : (s.dict.map Prod.fst).Nodup)
    (h : setitem s k v' = some s') : s'.dict.length = s.dict.length := by
  have hknot : k ∉ d₀.map Prod.fst := by
    rw [hd] at hnodup
    simp only [List.map_append, List.map_cons, List.map_nil,
      List.nodup_append] at hnodup
    intro hmem
    exact hnodup.2.2 hmem (by simp)
  rcases setitem_elim h with ⟨hlt, h'⟩ | ⟨hge, p, t, hpop, h'⟩
  · have hp : (dictGet s.dict k).isSome := by
      rw [hd, dictGet_append_last _ _ _ hknot]; rfl
    rw [h', odSetitem_dict, length_dictSet_present _ _ _ hp]
  · obtain ⟨hshape, _, _⟩ := popitem_eq hpop
    rw [hd] at hshape
    obtain ⟨hpt1, hpt2⟩ := List.append_inj' hshape (by simp)
    have hg : dictGet t.dict k = none := by
      apply dictGet_eq_none_of_not_mem_keys
      rw [← hpt1]; exact hknot
    rw [h', odSetitem_dict, dictSet_absent _ _ _ hg, hd, ← hpt1]
    simp

/-- A `get` on a present key in a well-sized state returns the stored
value. -/
theorem get_hit {s : LRUDict K V} {k : K} {v : V}
    (hget : dictGet s.dict k = some v) (hlen : s.dict.length ≤ s.limit)
    (default : V) : (get s k default).1 = v := by
  obtain ⟨d', hd', hdlen⟩ := dictPop_present hget
  have hlt : ¬ d'.length ≥ s.limit := by omega
  unfold get getitem
  rw [hd', Option.some_bind]
  have : setitem { s with dict := d' } k v =
      some (odSetitem { s with dict := d' } k v) := by
    unfold setitem
    rw [if_neg hlt]
  rw [this, Option.map_some']

end LRUDict

end XodbTools

/-! ## Claims about the LRU cache -/

section LRUClaims

open XodbTools XodbTools.LRUDict

/-- C1: the claim says that inserting a new key into a full cache evicts the
least-recently-used entry, the key at the front of the auxiliary order list
(here `k1 = 1` after inserting `1, 2, 3` into a capacity-2 cache).  The code
instead pops an entry of the raw Python dict (`dict.popitem`), which never
consults the front of `_list`: in the model (CPython insertion-order dict)
the trace evicts `2` — the most recently inserted key — and retains `1`,
contradicting both the claim and `LRUDict`'s own docstring ("items at the
front of the list will be discarded"). -/
theorem claim_C1_eviction_ignores_order_list :
    (setitem (⟨[], [], 2⟩ : LRUDict ℕ ℕ) 1 10).bind
        (fun s1 => (setitem s1 2 20).bind fun s2 => setitem s2 3 30) =
      some ⟨[(1, 10), (3, 30)], [1, 3], 2⟩ := by
  decide

/-- C4 counterexample: re-`put` of the existing key 1 in a capacity-3 cache
holding `[1, 2]` replaces the value but leaves `_list = [1, 2]` unchanged:
key 1 stays at the front (the next-to-evict position), not at the
most-recently-used end, so the claim's "moves that key to the end of the
order list" is false. -/
theorem claim_C4_counterexample :
    (setitem (⟨[], [], 3⟩ : LRUDict ℕ ℕ) 1 10).bind
        (fun s1 => (setitem s1 2 20).bind fun s2 => setitem s2 1 11) =
      some ⟨[(1, 11), (2, 20)], [1, 2], 3⟩ ∧
      (⟨[(1, 11), (2, 20)], [1, 2], 3⟩ : LRUDict ℕ ℕ).list.getLast? ≠ some 1 := by
  constructor <;> decide

/-- C4, amended: for a key already present in a cache strictly below
capacity, `put(key, value)` replaces the stored value and leaves the order
list (hence the key's recency position) unchanged; no promotion to the
most-recently-used end happens. -/
theorem claim_C4_amended_no_promotion {K V : Type} [DecidableEq K]
    (s : LRUDict K V) (k : K) (v : V)
    (hmem : (dictGet s.dict k).isSome) (hlt : s.dict.length < s.limit) :
    ∃ s', setitem s k v = some s' ∧ s'.list = s.list ∧
      dictGet s'.dict k = some v ∧ s'.dict.length = s.dict.length := by
  have hnotge : ¬ s.dict.length ≥ s.limit := by omega
  refine ⟨odSetitem s k v, by rw [setitem, if_neg hnotge], ?_, ?_, ?_⟩
  · show (if (dictGet s.dict k).isSome then s.list else s.list ++ [k]) = s.list
    rw [if_pos hmem]
  · exact dictGet_dictSet_self _ _ _
  · rw [odSetitem_dict, length_dictSet_present _ _ _ hmem]

/-- Witness for `claim_C4_amended_no_promotion` at a concrete cache. -/
theorem claim_C4_amended_no_promotion_witness :
    ((dictGet (⟨[(1, 5)], [1], 2⟩ : LRUDict ℕ ℕ).dict 1).isSome ∧
        (⟨[(1, 5)], [1], 2⟩ : LRUDict ℕ ℕ).dict.length <
          (⟨[(1, 5)], [1], 2⟩ : LRUDict ℕ ℕ).limit) ∧
      ∃ s', setitem (⟨[(1, 5)], [1], 2⟩ : LRUDict ℕ ℕ) 1 9 = some s' ∧
        s'.list = [1] ∧ dictGet s'.dict 1 = some 9 ∧ s'.dict.length = 1 :=
  ⟨⟨by decide, by decide⟩,
    claim_C4_amended_no_promotion ⟨[(1, 5)], [1], 2⟩ 1 9 (by decide) (by decide)⟩

/-- C8 counterexample, under the Python 2 `dict.popitem` contract the
repository actually runs on (the arbitrary removal choice shown as an
explicit index; index 0 — the oldest dict slot — both times is one legal
outcome, and is the one a CPython 2.5/2.6 hash-slot scan with its search
finger realizes on this trace): in a full capacity-2 cache holding keys 1
and 2, `put(1, 7); put(1, 9)` has the replacing put evict key 2, shrinking
the cache from 2 entries to 1 — so "the number of entries in the cache is
the same as after the first put (no entry is created or evicted by the
replacing put)" is false of the code. -/
theorem claim_C8_counterexample :
    setitemAt (⟨[(1, 10), (2, 20)], [1, 2], 2⟩ : LRUDict ℕ ℕ) 1 7 0 =
        some ⟨[(2, 20), (1, 7)], [2, 1], 2⟩ ∧
      setitemAt (⟨[(2, 20), (1, 7)], [2, 1], 2⟩ : LRUDict ℕ ℕ) 1 9 0 =
        some ⟨[(1, 9)], [1], 2⟩ ∧
      (⟨[(1, 9)], [1], 2⟩ : LRUDict ℕ ℕ).dict.length ≠
        (⟨[(2, 20), (1, 7)], [2, 1], 2⟩ : LRUDict ℕ ℕ).dict.length := by
  refine ⟨?_, ?_, ?_⟩ <;> decide

/-- C8, amended: as long as neither put reaches the eviction branch — the
cache is strictly below capacity and stays so after the first put (which
holds whenever the key is already present, or there are at least two free
slots) — `put(k, v1); put(k, v2)` leaves `get(k) = v2` and the entry count
unchanged.  On a full cache the replacing put does enter the eviction
branch and Python 2's arbitrary `dict.popitem` may evict a different key,
shrinking the cache (see the counterexample).  Since no `popitem` runs
under these hypotheses, the conclusion holds for every legal eviction
choice: the explicit-choice operations compute the same states for every
index. -/
theorem claim_C8_amended_idempotent_replace {K V : Type} [DecidableEq K]
    (s : LRUDict K V) (k : K) (v1 v2 : V) (hlt : s.dict.length < s.limit)
    (hroom : (dictGet s.dict k).isSome ∨ s.dict.length + 1 < s.limit) :
    ∃ s1 s2, setitem s k v1 = some s1 ∧ setitem s1 k v2 = some s2 ∧
      (∀ idx, setitemAt s k v1 idx = some s1 ∧
        setitemAt s1 k v2 idx = some s2) ∧
      s2.dict.length = s1.dict.length ∧
      ∀ d, (get s2 k d).1 = v2 := by
  have hge1 : ¬ s.dict.length ≥ s.limit := by omega
  have hlim1 : (odSetitem s k v1).limit = s.limit := odSetitem_limit s k v1
  have hlen1 : (odSetitem s k v1).dict.length < s.limit := by
    rw [odSetitem_dict]
    rcases hroom with hp | hsp
    · rw [length_dictSet_present _ _ _ hp]
      exact hlt
    · by_cases hp : (dictGet s.dict k).isSome
      · rw [length_dictSet_present _ _ _ hp]
        exact hlt
      · rw [dictSet_absent _ _ _ (Option.not_isSome_iff_eq_none.mp hp)]
        rw [List.length_append, List.length_singleton]
        omega
  have hge2 : ¬ (odSetitem s k v1).dict.length ≥ (odSetitem s k v1).limit := by
    rw [hlim1]
    omega
  have hmem1 : dictGet (odSetitem s k v1).dict k = some v1 := by
    rw [odSetitem_dict]
    exact dictGet_dictSet_self _ _ _
  refine ⟨odSetitem s k v1, odSetitem (odSetitem s k v1) k v2,
    by rw [setitem, if_neg hge1],
    by rw [setitem, if_neg hge2],
    fun idx => ⟨by rw [setitemAt, if_neg hge1], by rw [setitemAt, if_neg hge2]⟩,
    ?_, ?_⟩
  · rw [odSetitem_dict (odSetitem s k v1) k v2,
      length_dictSet_present _ _ _ (by rw [hmem1]; rfl)]
  · intro d
    refine get_hit ?_ ?_ d
    · rw [odSetitem_dict]
      exact dictGet_dictSet_self _ _ _
    · rw [odSetitem_dict (odSetitem s k v1) k v2,
        length_dictSet_present _ _ _ (by rw [hmem1]; rfl),
        odSetitem_limit]
      rw [hlim1]
      omega

/-- Witness for `claim_C8_amended_idempotent_replace` on a concrete cache
with two free slots. -/
theorem claim_C8_amended_idempotent_replace_witness :
    ((⟨[(5, 50)], [5], 3⟩ : LRUDict ℕ ℕ).dict.length <
        (⟨[(5, 50)], [5], 3⟩ : LRUDict ℕ ℕ).limit ∧
      ((dictGet (⟨[(5, 50)], [5], 3⟩ : LRUDict ℕ ℕ).dict 1).isSome ∨
        (⟨[(5, 50)], [5], 3⟩ : LRUDict ℕ ℕ).dict.length + 1 <
          (⟨[(5, 50)], [5], 3⟩ : LRUDict ℕ ℕ).limit)) ∧
      ∃ s1 s2, setitem (⟨[(5, 50)], [5], 3⟩ : LRUDict ℕ ℕ) 1 7 = some s1 ∧
        setitem s1 1 9 = some s2 ∧
        (∀ idx, setitemAt (⟨[(5, 50)], [5], 3⟩ : LRUDict ℕ ℕ) 1 7 idx = some s1 ∧
          setitemAt s1 1 9 idx = some s2) ∧
        s2.dict.length = s1.dict.length ∧
        ∀ d, (get s2 1 d).1 = 9 :=
  ⟨⟨by decide, Or.inr (by decide)⟩,
    claim_C8_amended_idempotent_replace ⟨[(5, 50)], [5], 3⟩ 1 7 9 (by decide)
      (Or.inr (by decide))⟩

end LRUClaims

/-! ## Lemmas about the geoprint model -/

namespace Geoprint

theorem chr_ff : chr false false = 'g' := rfl

theorem chr_ft : chr false true = 'a' := rfl

theorem chr_tf : chr true false = 't' := rfl

theorem chr_tt : chr true true = 'c' := rfl

theorem chr_mem_alphabet (b2 b1 : Bool) : chr b2 b1 ∈ alphabet := by
  cases b2 <;> cases b1 <;> decide

theorem decodemap_isSome_iff (c : Char) :
    (decodemap c).isSome ↔ c ∈ alphabet := by
  unfold decodemap alphabet
  split_ifs with h1 h2 h3 h4 <;> simp_all

theorem encBits_length (p : ℚ) (iv : interval) (n : Nat) :
    (encBits p iv n).length = n := by
  induction n generalizing iv with
  | zero => rfl
  | succ n ih => simp [encBits, ih]

theorem zipChars_cons (b2 b1 : Bool) (bs2 bs1 : List Bool) :
    zipChars (b2 :: bs2) (b1 :: bs1) = chr b2 b1 :: zipChars bs2 bs1 := rfl

theorem zipChars_length {bs2 bs1 : List Bool} (h : bs2.length = bs1.length) :
    (zipChars bs2 bs1).length = bs2.length := by
  simp [zipChars, h]

/-- The joint `encode` loop is the zip of the two single-axis bisection
runs. -/
theorem encodeAux_eq_zip (latitude longitude : ℚ) :
    ∀ (n : Nat) (loni lati : interval),
      encodeAux latitude longitude loni lati n =
        zipChars (encBits longitude loni n) (encBits latitude lati n) := by
  intro n
  induction n with
  | zero => intro loni lati; rfl
  | succ n ih =>
    intro loni lati
    by_cases hlon : longitude > (loni.min + loni.max) / 2 <;>
      by_cases hlat : latitude > (lati.min + lati.max) / 2 <;>
        simp [encodeAux, encBits, narrow, hlon, hlat, zipChars_cons, ih, chr]

theorem decodeAux_cons_g (loni lati : interval) (rest : List Char) :
    decodeAux loni lati ('g' :: rest) =
      decodeAux (narrow loni false) (narrow lati false) rest := rfl

theorem decodeAux_cons_a (loni lati : interval) (rest : List Char) :
    decodeAux loni lati ('a' :: rest) =
      decodeAux (narrow loni false) (narrow lati true) rest := rfl

theorem decodeAux_cons_t (loni lati : interval) (rest : List Char) :
    decodeAux loni lati ('t' :: rest) =
      decodeAux (narrow loni true) (narrow lati false) rest := rfl

theorem decodeAux_cons_c (loni lati : interval) (rest : List Char) :
    decodeAux loni lati ('c' :: rest) =
      decodeAux (narrow loni true) (narrow lati true) rest := rfl

theorem narrows_cons (iv : interval) (b : Bool) (bs : List Bool) :
    narrows iv (b :: bs) = narrows (narrow iv b) bs := rfl

/-- Decoding retraces a zipped pair of branch-choice lists exactly. -/
theorem decodeAux_zip :
    ∀ (bs2 bs1 : List Bool) (loni lati : interval),
      bs2.length = bs1.length →
      decodeAux loni lati (zipChars bs2 bs1) =
        some (narrows loni bs2, narrows lati bs1) := by
  intro bs2
  induction bs2 with
  | nil =>
    intro bs1 loni lati h
    rw [List.length_nil] at h
    rw [List.eq_nil_of_length_eq_zero h.symm]
    rfl
  | cons b2 t2 ih =>
    intro bs1 loni lati h
    cases bs1 with
    | nil => simp at h
    | cons b1 t1 =>
      simp only [List.length_cons, Nat.succ.injEq] at h
      rw [zipChars_cons]
      cases b2 <;> cases b1 <;>
        simp only [chr_ff, chr_ft, chr_tf, chr_tt, decodeAux_cons_g,
          decodeAux_cons_a, decodeAux_cons_t, decodeAux_cons_c,
          narrows_cons] <;>
        exact ih t1 _ _ h

end Geoprint

namespace Geoprint

/-- The point being encoded stays inside the narrowed interval. -/
theorem narrows_encBits_mem (p : ℚ) :
    ∀ (n : Nat) (iv : interval), iv.min ≤ p → p ≤ iv.max →
      (narrows iv (encBits p iv n)).min ≤ p ∧
        p ≤ (narrows iv (encBits p iv n)).max := by
  intro n
  induction n with
  | zero => intro iv h1 h2; exact ⟨h1, h2⟩
  | succ n ih =>
    intro iv h1 h2
    by_cases hb : p > (iv.min + iv.max) / 2
    · rw [encBits, show decide (p > (iv.min + iv.max) / 2) = true
        from decide_eq_true hb, narrows_cons]
      exact ih (narrow iv true) (le_of_lt hb) h2
    · rw [encBits, show decide (p > (iv.min + iv.max) / 2) = false
        from decide_eq_false hb, narrows_cons]
      exact ih (narrow iv false) h1 (le_of_not_lt hb)

/-- Each bisection step halves the interval width. -/
theorem narrows_width :
    ∀ (bs : List Bool) (iv : interval),
      (narrows iv bs).max - (narrows iv bs).min =
        (iv.max - iv.min) / 2 ^ bs.length := by
  intro bs
  induction bs with
  | nil => intro iv; simp [narrows]
  | cons b t ih =>
    intro iv
    rw [narrows_cons, ih, List.length_cons, pow_succ]
    cases b <;>
      · show _ = (iv.max - iv.min) / (2 ^ t.length * 2)
        rw [narrow]
        simp only [Bool.false_eq_true, if_false, if_true]
        ring

theorem narrow_false (iv : interval) :
    narrow iv false = ⟨iv.min, (iv.min + iv.max) / 2⟩ := rfl

theorem narrow_true (iv : interval) :
    narrow iv true = ⟨(iv.min + iv.max) / 2, iv.max⟩ := rfl

/-- Narrowing stays inside the original interval. -/
theorem narrows_subset :
    ∀ (bs : List Bool) (iv : interval), iv.min ≤ iv.max →
      iv.min ≤ (narrows iv bs).min ∧ (narrows iv bs).max ≤ iv.max ∧
        (narrows iv bs).min ≤ (narrows iv bs).max := by
  intro bs
  induction bs with
  | nil => intro iv h; exact ⟨le_refl _, le_refl _, h⟩
  | cons b t ih =>
    intro iv h
    rw [narrows_cons]
    cases b
    · rw [narrow_false]
      obtain ⟨a1, a2, a3⟩ := ih ⟨iv.min, (iv.min + iv.max) / 2⟩
        (by show iv.min ≤ (iv.min + iv.max) / 2; linarith)
      exact ⟨a1, le_trans a2
        (by show (iv.min + iv.max) / 2 ≤ iv.max; linarith), a3⟩
    · rw [narrow_true]
      obtain ⟨a1, a2, a3⟩ := ih ⟨(iv.min + iv.max) / 2, iv.max⟩
        (by show (iv.min + iv.max) / 2 ≤ iv.max; linarith)
      exact ⟨le_trans
        (by show iv.min ≤ (iv.min + iv.max) / 2; linarith) a1, a2, a3⟩

/-- The encoder's branch-choice list is computed prefix by prefix. -/
theorem encBits_take (p : ℚ) :
    ∀ (n m : Nat) (iv : interval),
      (encBits p iv n).take m = encBits p iv (min m n) := by
  intro n
  induction n with
  | zero => intro m iv; simp [encBits]
  | succ n ih =>
    intro m iv
    cases m with
    | zero => simp [encBits]
    | succ m =>
      rw [encBits, List.take_succ_cons, ih m]
      rw [show min (m + 1) (n + 1) = min m n + 1 from by omega, encBits]

/-- The final interval is the `i`-th cell of the uniform `2 ^ |bs|`-cell
subdivision, for some index `i`. -/
theorem narrows_cell :
    ∀ (bs : List Bool) (iv : interval),
      ∃ i : ℕ, i < 2 ^ bs.length ∧
        (narrows iv bs).min =
          iv.min + (i : ℚ) * ((iv.max - iv.min) / 2 ^ bs.length) ∧
        (narrows iv bs).max =
          iv.min + ((i : ℚ) + 1) * ((iv.max - iv.min) / 2 ^ bs.length) := by
  intro bs
  induction bs with
  | nil =>
    intro iv
    exact ⟨0, by norm_num, by simp [narrows], by simp [narrows]⟩
  | cons b t ih =>
    intro iv
    rw [narrows_cons, List.length_cons]
    have h2 : (2 : ℚ) ^ t.length ≠ 0 := by positivity
    cases b
    · obtain ⟨i, hi, hmin, hmax⟩ := ih (narrow iv false)
      refine ⟨i, ?_, ?_, ?_⟩
      · calc i < 2 ^ t.length := hi
          _ ≤ 2 ^ (t.length + 1) := by
            exact Nat.pow_le_pow_right (by norm_num) (by omega)
      · rw [hmin, narrow]
        simp only [Bool.false_eq_true, if_false]
        rw [pow_succ]
        field_simp
        ring
      · rw [hmax, narrow]
        simp only [Bool.false_eq_true, if_false]
        rw [pow_succ]
        field_simp
        ring
    · obtain ⟨i, hi, hmin, hmax⟩ := ih (narrow iv true)
      refine ⟨2 ^ t.length + i, ?_, ?_, ?_⟩
      · have : (2 : ℕ) ^ (t.length + 1) = 2 ^ t.length + 2 ^ t.length := by
          rw [pow_succ]; omega
        omega
      · rw [hmin, narrow]
        simp only [if_true]
        rw [pow_succ]
        push_cast
        field_simp
        ring
      · rw [hmax, narrow]
        simp only [if_true]
        rw [pow_succ]
        push_cast
        field_simp
        ring

end Geoprint

namespace Geoprint

/-- The first `n` branch choices of a longer run are a run of their own;
the remaining choices continue from the narrowed interval. -/
theorem encBits_append (p : ℚ) :
    ∀ (n m : Nat) (iv : interval),
      encBits p iv (n + m) =
        encBits p iv n ++ encBits p (narrows iv (encBits p iv n)) m := by
  intro n
  induction n with
  | zero => intro m iv; simp [encBits, narrows]
  | succ n ih =>
    intro m iv
    rw [show n + 1 + m = (n + m) + 1 from by omega]
    rw [encBits, encBits, List.cons_append, narrows_cons]
    rw [ih m]

theorem narrows_append (iv : interval) (bs cs : List Bool) :
    narrows iv (bs ++ cs) = narrows (narrows iv bs) cs := by
  simp [narrows, List.foldl_append]

theorem encodeAux_length (latitude longitude : ℚ) (loni lati : interval)
    (n : Nat) : (encodeAux latitude longitude loni lati n).length = n := by
  rw [encodeAux_eq_zip, zipChars_length (by rw [encBits_length, encBits_length]),
    encBits_length]

theorem encode_length (latitude longitude : ℚ) {precision : Nat}
    (h : 1 ≤ precision) : (encode latitude longitude precision).length = precision := by
  unfold encode
  by_cases hl : longitude < 0 <;>
    simp only [hl, if_true, if_false, List.length_cons, encodeAux_length] <;>
    omega

/-- `encode`, described through the single-axis helpers. -/
theorem encode_eq (latitude longitude : ℚ) (precision : Nat) :
    encode latitude longitude precision =
      (if longitude < 0 then 'w' else 'e') ::
        zipChars (encBits longitude (lonStart longitude) (precision - 1))
          (encBits latitude ⟨-90, 90⟩ (precision - 1)) := by
  unfold encode lonStart
  by_cases hl : longitude < 0 <;>
    simp only [hl, if_true, if_false, encodeAux_eq_zip]

/-- Decoding an encoded geoprint recovers exactly the final intervals of
the encoding bisection. -/
theorem decodeIvls_encode (latitude longitude : ℚ) (precision : Nat) :
    decodeIvls (encode latitude longitude precision) =
      some (narrows (lonStart longitude) (encBits longitude (lonStart longitude) (precision - 1)),
        narrows ⟨-90, 90⟩ (encBits latitude ⟨-90, 90⟩ (precision - 1))) := by
  rw [encode_eq]
  by_cases hl : longitude < 0
  · simp only [hl, if_true]
    show decodeAux ⟨-180, 0⟩ ⟨-90, 90⟩ _ = _
    rw [decodeAux_zip _ _ _ _ (by rw [encBits_length, encBits_length])]
    rw [show lonStart longitude = ⟨-180, 0⟩ from by rw [lonStart, if_pos hl]]
  · simp only [hl, if_false]
    show decodeAux ⟨0, 180⟩ ⟨-90, 90⟩ _ = _
    rw [decodeAux_zip _ _ _ _ (by rw [encBits_length, encBits_length])]
    rw [show lonStart longitude = ⟨0, 180⟩ from by rw [lonStart, if_neg hl]]

/-- The midpoint of an interval is within half its width of any point of
the interval. -/
theorem abs_midpt_sub_le {iv : interval} {x : ℚ} (h1 : iv.min ≤ x)
    (h2 : x ≤ iv.max) : |midpt iv - x| ≤ (iv.max - iv.min) / 2 := by
  rw [abs_le, midpt]
  constructor <;> linarith

theorem error_encode (latitude longitude : ℚ) {precision : Nat}
    (h : 1 ≤ precision) :
    error (encode latitude longitude precision) =
      90 / 2 ^ (precision - 1) := by
  rw [error, encode_length latitude longitude h]
  rw [show -((precision : ℤ) - 1) = -((precision - 1 : ℕ) : ℤ) from by
    push_cast [Nat.cast_sub h]; ring]
  rw [zpow_neg, zpow_natCast]
  rw [div_eq_mul_inv]

end Geoprint

namespace Geoprint

theorem lonStart_mem {lon : ℚ} (h3 : -180 ≤ lon) (h4 : lon ≤ 180) :
    (lonStart lon).min ≤ lon ∧ lon ≤ (lonStart lon).max := by
  unfold lonStart
  by_cases hl : lon < 0
  · rw [if_pos hl]
    exact ⟨h3, le_of_lt hl⟩
  · rw [if_neg hl]
    exact ⟨le_of_not_lt hl, h4⟩

theorem lonStart_wide (lon : ℚ) :
    (lonStart lon).max - (lonStart lon).min = 180 := by
  unfold lonStart
  by_cases hl : lon < 0 <;> simp [hl]

theorem decodeAux_isSome_iff :
    ∀ (cs : List Char) (loni lati : interval),
      (decodeAux loni lati cs).isSome ↔ ∀ x ∈ cs, x ∈ alphabet := by
  intro cs
  induction cs with
  | nil => intro loni lati; simp [decodeAux]
  | cons c rest ih =>
    intro loni lati
    rcases hc : decodemap c with _ | cd
    · have hmem : c ∉ alphabet := by
        rw [← decodemap_isSome_iff, hc]
        simp
      constructor
      · intro h
        rw [decodeAux, hc] at h
        simp at h
      · intro h
        exact absurd (h c (List.mem_cons_self _ _)) hmem
    · have hmem : c ∈ alphabet := by
        rw [← decodemap_isSome_iff, hc]
        rfl
      rw [decodeAux, hc, Option.some_bind]
      constructor
      · intro h x hx
        rcases List.mem_cons.mp hx with h' | h'
        · exact h' ▸ hmem
        · exact ((ih _ _).mp h) x h'
      · intro h
        exact (ih _ _).mpr fun x hx => h x (List.mem_cons_of_mem _ hx)

theorem decodeIvls_w (cs : List Char) :
    decodeIvls ('w' :: cs) = decodeAux ⟨-180, 0⟩ ⟨-90, 90⟩ cs := rfl

theorem decodeIvls_e (cs : List Char) :
    decodeIvls ('e' :: cs) = decodeAux ⟨0, 180⟩ ⟨-90, 90⟩ cs := rfl

theorem decodeAux_nil (loni lati : interval) :
    decodeAux loni lati [] = some (loni, lati) := rfl

end Geoprint


namespace Geoprint

/-- Encoding the center of the `i`-th cell of the uniform subdivision
retraces exactly that cell: the bisection at each level picks the half that
contains the center strictly. -/
theorem encBits_center :
    ∀ (n : Nat) (iv : interval) (i : ℕ), iv.min < iv.max → i < 2 ^ n →
      narrows iv (encBits
          (iv.min + (2 * (i : ℚ) + 1) * ((iv.max - iv.min) / 2 ^ (n + 1)))
          iv n) =
        ⟨iv.min + (i : ℚ) * ((iv.max - iv.min) / 2 ^ n),
          iv.min + ((i : ℚ) + 1) * ((iv.max - iv.min) / 2 ^ n)⟩ := by
  intro n
  induction n with
  | zero =>
    intro iv i hlt hi
    have hi0 : i = 0 := by omega
    subst hi0
    show iv = _
    cases iv with
    | mk mn mx =>
      simp only [interval.mk.injEq]
      constructor <;> push_cast <;> ring
  | succ n ih =>
    intro iv i hlt hi
    have h2n : (0 : ℚ) < 2 ^ (n + 2) := by positivity
    have hww : (0 : ℚ) < (iv.max - iv.min) / 2 ^ (n + 2) :=
      div_pos (by linarith) h2n
    have hmid : (2 : ℚ) ^ (n + 1) * ((iv.max - iv.min) / 2 ^ (n + 2)) =
        (iv.max - iv.min) / 2 := by
      field_simp
      ring
    have hp2 : (2 : ℕ) ^ (n + 1) = 2 ^ n + 2 ^ n := by
      rw [pow_succ]
      omega
    rcases Nat.lt_or_ge i (2 ^ n) with hlo | hhi
    · have hnum : (2 * (i : ℚ) + 1) < 2 ^ (n + 1) := by
        have : 2 * i + 1 < 2 ^ (n + 1) := by omega
        exact_mod_cast this
      have hple : iv.min + (2 * (i : ℚ) + 1) *
          ((iv.max - iv.min) / 2 ^ (n + 1 + 1)) < (iv.min + iv.max) / 2 := by
        have hmul := mul_lt_mul_of_pos_right hnum hww
        rw [hmid] at hmul
        have : (n + 1 + 1) = n + 2 := by omega
        rw [this]
        linarith
      rw [encBits, show decide (iv.min + (2 * (i : ℚ) + 1) *
          ((iv.max - iv.min) / 2 ^ (n + 1 + 1)) > (iv.min + iv.max) / 2) = false
        from decide_eq_false (not_lt.mpr (le_of_lt hple)), narrows_cons,
        narrow_false]
      have hpeq : iv.min + (2 * (i : ℚ) + 1) *
          ((iv.max - iv.min) / 2 ^ (n + 1 + 1)) =
          (⟨iv.min, (iv.min + iv.max) / 2⟩ : interval).min + (2 * (i : ℚ) + 1) *
            (((⟨iv.min, (iv.min + iv.max) / 2⟩ : interval).max -
              (⟨iv.min, (iv.min + iv.max) / 2⟩ : interval).min) / 2 ^ (n + 1)) := by
        show iv.min + _ = iv.min + _
        have h2n1 : (2 : ℚ) ^ (n + 1) ≠ 0 := by positivity
        field_simp
        ring
      rw [hpeq, ih ⟨iv.min, (iv.min + iv.max) / 2⟩ i
        (by show iv.min < (iv.min + iv.max) / 2; linarith) hlo]
      simp only [interval.mk.injEq]
      have h2n1 : (2 : ℚ) ^ (n + 1) ≠ 0 := by positivity
      have h2nQ : (2 : ℚ) ^ n ≠ 0 := by positivity
      constructor <;> (show _ = iv.min + _ * ((iv.max - iv.min) / 2 ^ (n + 1)); field_simp; ring)
    · obtain ⟨j, rfl⟩ : ∃ j, i = 2 ^ n + j := ⟨i - 2 ^ n, by omega⟩
      have hj : j < 2 ^ n := by omega
      have hnum : (2 : ℚ) ^ (n + 1) < 2 * ((2 ^ n + j : ℕ) : ℚ) + 1 := by
        have : 2 ^ (n + 1) < 2 * (2 ^ n + j) + 1 := by omega
        exact_mod_cast this
      have hpgt : (iv.min + iv.max) / 2 < iv.min + (2 * ((2 ^ n + j : ℕ) : ℚ) + 1) *
          ((iv.max - iv.min) / 2 ^ (n + 1 + 1)) := by
        have hmul := mul_lt_mul_of_pos_right hnum hww
        rw [hmid] at hmul
        have : (n + 1 + 1) = n + 2 := by omega
        rw [this]
        linarith
      rw [encBits, show decide (iv.min + (2 * ((2 ^ n + j : ℕ) : ℚ) + 1) *
          ((iv.max - iv.min) / 2 ^ (n + 1 + 1)) > (iv.min + iv.max) / 2) = true
        from decide_eq_true hpgt, narrows_cons, narrow_true]
      have hpeq : iv.min + (2 * ((2 ^ n + j : ℕ) : ℚ) + 1) *
          ((iv.max - iv.min) / 2 ^ (n + 1 + 1)) =
          (⟨(iv.min + iv.max) / 2, iv.max⟩ : interval).min + (2 * (j : ℚ) + 1) *
            (((⟨(iv.min + iv.max) / 2, iv.max⟩ : interval).max -
              (⟨(iv.min + iv.max) / 2, iv.max⟩ : interval).min) / 2 ^ (n + 1)) := by
        show iv.min + _ = (iv.min + iv.max) / 2 + _
        have h2n1 : (2 : ℚ) ^ (n + 1) ≠ 0 := by positivity
        push_cast
        field_simp
        ring
      rw [hpeq, ih ⟨(iv.min + iv.max) / 2, iv.max⟩ j
        (by show (iv.min + iv.max) / 2 < iv.max; linarith) hj]
      simp only [interval.mk.injEq]
      have h2n1 : (2 : ℚ) ^ (n + 1) ≠ 0 := by positivity
      have h2nQ : (2 : ℚ) ^ n ≠ 0 := by positivity
      constructor <;> (show (iv.min + iv.max) / 2 + _ = iv.min + _ * ((iv.max - iv.min) / 2 ^ (n + 1)); push_cast; field_simp; ring)

end Geoprint


namespace Geoprint

/-- Every string of alphabet characters is the zip of two branch-choice
lists. -/
theorem exists_zip_of_valid :
    ∀ (cs : List Char), (∀ c ∈ cs, c ∈ alphabet) →
      ∃ bs2 bs1 : List Bool, bs2.length = cs.length ∧
        bs1.length = cs.length ∧ cs = zipChars bs2 bs1 := by
  intro cs
  induction cs with
  | nil => intro _; exact ⟨[], [], rfl, rfl, rfl⟩
  | cons c rest ih =>
    intro h
    obtain ⟨bs2, bs1, h2, h1, heq⟩ :=
      ih fun x hx => h x (List.mem_cons_of_mem _ hx)
    have hc : c ∈ alphabet := h c (List.mem_cons_self _ _)
    simp only [alphabet, List.mem_cons, List.not_mem_nil, or_false] at hc
    rcases hc with rfl | rfl | rfl | rfl
    · exact ⟨false :: bs2, false :: bs1, by simp [h2], by simp [h1],
        by rw [zipChars_cons, chr_ff, ← heq]⟩
    · exact ⟨false :: bs2, true :: bs1, by simp [h2], by simp [h1],
        by rw [zipChars_cons, chr_ft, ← heq]⟩
    · exact ⟨true :: bs2, false :: bs1, by simp [h2], by simp [h1],
        by rw [zipChars_cons, chr_tf, ← heq]⟩
    · exact ⟨true :: bs2, true :: bs1, by simp [h2], by simp [h1],
        by rw [zipChars_cons, chr_tt, ← heq]⟩

/-- `decode` after `encode`, with the final intervals spelled out. -/
theorem decode_encode (lat lon : ℚ) (P : ℕ) :
    decode (encode lat lon P) = some
      (midpt (narrows ⟨-90, 90⟩ (encBits lat ⟨-90, 90⟩ (P - 1))),
       midpt (narrows (lonStart lon) (encBits lon (lonStart lon) (P - 1)))) := by
  rw [decode, decodeIvls_encode, Option.map_some']
  rfl

/-- `2 ** (precision - 1)` with integer exponent, rewritten with a natural
exponent when the precision is positive. -/
theorem spacing_eq {m n : ℕ} (h : m = n + 1) :
    (180 : ℚ) / (2 : ℚ) ^ ((m : ℤ) - 1) = 180 / 2 ^ n := by
  subst h
  rw [show ((n + 1 : ℕ) : ℤ) - 1 = (n : ℤ) from by push_cast; ring,
    zpow_natCast]

/-- The center decoded from any valid geoprint is a grid center: latitude
`-90 + (2i+1)·180/2^(n+1)` and longitude `A + (2j+1)·180/2^(n+1)` with `A`
the hemisphere base and `i, j < 2^n`, where `n + 1` is the code length. -/
theorem decode_center_form {C : List Char} {clat clon : ℚ}
    (hd : decode C = some (clat, clon)) :
    ∃ (n i j : ℕ) (A : ℚ), C.length = n + 1 ∧ i < 2 ^ n ∧ j < 2 ^ n ∧
      (A = -180 ∨ A = 0) ∧
      clat = -90 + (2 * (i : ℚ) + 1) * (180 / 2 ^ (n + 1)) ∧
      clon = A + (2 * (j : ℚ) + 1) * (180 / 2 ^ (n + 1)) := by
  obtain ⟨⟨lo, la⟩, hivls, hmap⟩ := Option.map_eq_some'.mp hd
  have hmain : ∀ (start : interval), (start = ⟨-180, 0⟩ ∨ start = ⟨0, 180⟩) →
      ∀ (cs : List Char), decodeAux start ⟨-90, 90⟩ cs = some (lo, la) →
      ∃ (i j : ℕ) (A : ℚ), i < 2 ^ cs.length ∧ j < 2 ^ cs.length ∧
        (A = -180 ∨ A = 0) ∧
        clat = -90 + (2 * (i : ℚ) + 1) * (180 / 2 ^ (cs.length + 1)) ∧
        clon = A + (2 * (j : ℚ) + 1) * (180 / 2 ^ (cs.length + 1)) := by
    intro start hstart cs hdec
    have hvalid : ∀ x ∈ cs, x ∈ alphabet := by
      rw [← decodeAux_isSome_iff cs start ⟨-90, 90⟩, hdec]
      rfl
    obtain ⟨bs2, bs1, h2, h1, rfl⟩ := exists_zip_of_valid cs hvalid
    rw [decodeAux_zip bs2 bs1 _ _ (h2.trans h1.symm)] at hdec
    have hlo : lo = narrows start bs2 := by
      have := (Option.some.injEq _ _).mp hdec
      exact (congrArg Prod.fst this).symm
    have hla : la = narrows ⟨-90, 90⟩ bs1 := by
      have := (Option.some.injEq _ _).mp hdec
      exact (congrArg Prod.snd this).symm
    obtain ⟨i, hi, hi1, hi2⟩ := narrows_cell bs1 ⟨-90, 90⟩
    obtain ⟨j, hj, hj1, hj2⟩ := narrows_cell bs2 start
    have hbb : bs2.length = bs1.length := h2.trans h1.symm
    rw [hbb] at hj hj1 hj2
    have hlen : (zipChars bs2 bs1).length = bs1.length := by
      rw [zipChars_length hbb, hbb]
    have hclat : clat = (la.min + la.max) / 2 :=
      (congrArg Prod.fst hmap).symm
    have hclon : clon = (lo.min + lo.max) / 2 :=
      (congrArg Prod.snd hmap).symm
    refine ⟨i, j, start.min, ?_, ?_, ?_, ?_, ?_⟩
    · rw [hlen]; exact hi
    · rw [hlen]; exact hj
    · rcases hstart with rfl | rfl
      · left; rfl
      · right; rfl
    · rw [hclat, hla, hi1, hi2, hlen]
      have hnz : (2 : ℚ) ^ bs1.length ≠ 0 := by positivity
      show ((-90 : ℚ) + _ + (-90 + _)) / 2 = -90 + _
      field_simp
      ring
    · rw [hclon, hlo, hj1, hj2, hlen]
      have hnz : (2 : ℚ) ^ bs1.length ≠ 0 := by positivity
      have hwide : start.max - start.min = 180 := by
        rcases hstart with rfl | rfl <;> norm_num
      rw [hwide]
      field_simp
      ring
  cases C with
  | nil => simp [decodeIvls] at hivls
  | cons c0 cs =>
    by_cases hw : c0 = 'w'
    · subst hw
      rw [decodeIvls_w] at hivls
      obtain ⟨i, j, A, h⟩ := hmain ⟨-180, 0⟩ (Or.inl rfl) cs hivls
      exact ⟨cs.length, i, j, A, by simp, h.1, h.2.1, h.2.2.1, h.2.2.2.1,
        h.2.2.2.2⟩
    · by_cases he : c0 = 'e'
      · subst he
        rw [decodeIvls_e] at hivls
        obtain ⟨i, j, A, h⟩ := hmain ⟨0, 180⟩ (Or.inr rfl) cs hivls
        exact ⟨cs.length, i, j, A, by simp, h.1, h.2.1, h.2.2.1, h.2.2.2.1,
          h.2.2.2.2⟩
      · rw [show decodeIvls (c0 :: cs) =
            if c0 = 'w' then decodeAux ⟨-180, 0⟩ ⟨-90, 90⟩ cs
            else if c0 = 'e' then decodeAux ⟨0, 180⟩ ⟨-90, 90⟩ cs
            else none from rfl, if_neg hw, if_neg he] at hivls
        exact absurd hivls (by simp)

end Geoprint


namespace Geoprint

/-- Encoding a grid-center point at matching precision decodes back to
exactly that point. -/
theorem encode_center_roundtrip (n i j : ℕ) (lat' lon' A : ℚ)
    (hi : i < 2 ^ n) (hj : j < 2 ^ n) (hA : A = -180 ∨ A = 0)
    (hlat : lat' = -90 + (2 * (i : ℚ) + 1) * (180 / 2 ^ (n + 1)))
    (hlon : lon' = A + (2 * (j : ℚ) + 1) * (180 / 2 ^ (n + 1))) :
    decode (encode lat' lon' (n + 1)) = some (lat', lon') := by
  have h2n1 : (0 : ℚ) < 2 ^ (n + 1) := by positivity
  have hpos : (0 : ℚ) < 180 / 2 ^ (n + 1) := by positivity
  have h180 : (2 : ℚ) ^ (n + 1) * (180 / 2 ^ (n + 1)) = 180 := by
    field_simp
  have hnumj : (2 * (j : ℚ) + 1) < 2 ^ (n + 1) := by
    have hp2 : (2 : ℕ) ^ (n + 1) = 2 ^ n + 2 ^ n := by rw [pow_succ]; omega
    have : 2 * j + 1 < 2 ^ (n + 1) := by omega
    exact_mod_cast this
  have hnumj0 : (0 : ℚ) < 2 * (j : ℚ) + 1 := by positivity
  rw [decode_encode]
  -- latitude axis
  have hlatc := encBits_center n ⟨-90, 90⟩ i (by norm_num) hi
  have hlat_arg : lat' = (⟨-90, 90⟩ : interval).min + (2 * (i : ℚ) + 1) *
      (((⟨-90, 90⟩ : interval).max - (⟨-90, 90⟩ : interval).min) / 2 ^ (n + 1)) := by
    rw [hlat]
    norm_num
  rw [← hlat_arg] at hlatc
  -- longitude axis: pick the hemisphere
  rcases hA with rfl | rfl
  · have hlon_neg : lon' < 0 := by
      have hmul := mul_lt_mul_of_pos_right hnumj hpos
      rw [h180] at hmul
      rw [hlon]
      linarith
    have hstart : lonStart lon' = ⟨-180, 0⟩ := by
      rw [lonStart, if_pos hlon_neg]
    have hlonc := encBits_center n ⟨-180, 0⟩ j (by norm_num) hj
    have hlon_arg : lon' = (⟨-180, 0⟩ : interval).min + (2 * (j : ℚ) + 1) *
        (((⟨-180, 0⟩ : interval).max - (⟨-180, 0⟩ : interval).min) / 2 ^ (n + 1)) := by
      rw [hlon]
      norm_num
    rw [← hlon_arg] at hlonc
    rw [show (n + 1) - 1 = n from by omega, hstart, hlatc, hlonc]
    have h2nQ : (2 : ℚ) ^ n ≠ 0 := by positivity
    rw [midpt, midpt, Option.some.injEq, Prod.mk.injEq]
    constructor
    · show (-90 + (i : ℚ) * ((90 - -90) / 2 ^ n) +
          (-90 + ((i : ℚ) + 1) * ((90 - -90) / 2 ^ n))) / 2 = lat'
      rw [hlat]
      field_simp
      ring
    · show (-180 + (j : ℚ) * ((0 - -180) / 2 ^ n) +
          (-180 + ((j : ℚ) + 1) * ((0 - -180) / 2 ^ n))) / 2 = lon'
      rw [hlon]
      field_simp
      ring
  · have hlon_nonneg : ¬ lon' < 0 := by
      have : (0 : ℚ) < (2 * (j : ℚ) + 1) * (180 / 2 ^ (n + 1)) :=
        mul_pos hnumj0 hpos
      rw [hlon]
      linarith
    have hstart : lonStart lon' = ⟨0, 180⟩ := by
      rw [lonStart, if_neg hlon_nonneg]
    have hlonc := encBits_center n ⟨0, 180⟩ j (by norm_num) hj
    have hlon_arg : lon' = (⟨0, 180⟩ : interval).min + (2 * (j : ℚ) + 1) *
        (((⟨0, 180⟩ : interval).max - (⟨0, 180⟩ : interval).min) / 2 ^ (n + 1)) := by
      rw [hlon]
      norm_num
    rw [← hlon_arg] at hlonc
    rw [show (n + 1) - 1 = n from by omega, hstart, hlatc, hlonc]
    have h2nQ : (2 : ℚ) ^ n ≠ 0 := by positivity
    rw [midpt, midpt, Option.some.injEq, Prod.mk.injEq]
    constructor
    · show (-90 + (i : ℚ) * ((90 - -90) / 2 ^ n) +
          (-90 + ((i : ℚ) + 1) * ((90 - -90) / 2 ^ n))) / 2 = lat'
      rw [hlat]
      field_simp
      ring
    · show (0 + (j : ℚ) * ((180 - 0) / 2 ^ n) +
          (0 + ((j : ℚ) + 1) * ((180 - 0) / 2 ^ n))) / 2 = lon'
      rw [hlon]
      field_simp
      ring

/-- Moving a latitude grid center one spacing up or down lands on another
latitude grid center, away from the polar rows. -/
theorem lat_center_shift {n i : ℕ} {clat d : ℚ} (hi : i < 2 ^ n)
    (hc : clat = -90 + (2 * (i : ℚ) + 1) * (180 / 2 ^ (n + 1)))
    (hlo : -90 < clat - 180 / 2 ^ n) (hhi : clat + 180 / 2 ^ n < 90)
    (hd : d = -1 ∨ d = 1) :
    ∃ i' : ℕ, i' < 2 ^ n ∧
      clat + d * (180 / 2 ^ n) = -90 + (2 * (i' : ℚ) + 1) * (180 / 2 ^ (n + 1)) := by
  have h2n1 : (0 : ℚ) < 2 ^ (n + 1) := by positivity
  have hpos : (0 : ℚ) < 180 / 2 ^ (n + 1) := by positivity
  have h2nQ : (2 : ℚ) ^ n ≠ 0 := by positivity
  have hs : (180 : ℚ) / 2 ^ n = 2 * (180 / 2 ^ (n + 1)) := by
    field_simp
    ring
  have h180 : (2 : ℚ) ^ (n + 1) * (180 / 2 ^ (n + 1)) = 180 := by field_simp
  have hp2 : (2 : ℕ) ^ (n + 1) = 2 ^ n + 2 ^ n := by rw [pow_succ]; omega
  rcases hd with rfl | rfl
  · have hi1 : 1 ≤ i := by
      by_contra h
      have h0 : i = 0 := by omega
      subst h0
      rw [hc, hs] at hlo
      push_cast at hlo
      linarith
    refine ⟨i - 1, by omega, ?_⟩
    rw [hc, hs, Nat.cast_sub hi1]
    push_cast
    ring
  · have hi1 : i + 1 < 2 ^ n := by
      rw [hc, hs] at hhi
      have hkey : (2 * (i : ℚ) + 3) * (180 / 2 ^ (n + 1)) <
          (2 : ℚ) ^ (n + 1) * (180 / 2 ^ (n + 1)) := by
        rw [h180]
        linarith
      have hQ := (mul_lt_mul_right hpos).mp hkey
      have hN : 2 * i + 3 < 2 ^ (n + 1) := by exact_mod_cast hQ
      omega
    refine ⟨i + 1, hi1, ?_⟩
    rw [hc, hs]
    push_cast
    ring

/-- Moving a longitude grid center one spacing east or west lands on
another longitude grid center (possibly of the other hemisphere), away
from the date-line columns. -/
theorem lon_center_shift {n j : ℕ} {clon A d : ℚ} (hj : j < 2 ^ n)
    (hA : A = -180 ∨ A = 0)
    (hc : clon = A + (2 * (j : ℚ) + 1) * (180 / 2 ^ (n + 1)))
    (hlo : -180 < clon - 180 / 2 ^ n) (hhi : clon + 180 / 2 ^ n < 180)
    (hd : d = -1 ∨ d = 1) :
    ∃ (j' : ℕ) (A' : ℚ), j' < 2 ^ n ∧ (A' = -180 ∨ A' = 0) ∧
      clon + d * (180 / 2 ^ n) = A' + (2 * (j' : ℚ) + 1) * (180 / 2 ^ (n + 1)) := by
  have h2n1 : (0 : ℚ) < 2 ^ (n + 1) := by positivity
  have hpos : (0 : ℚ) < 180 / 2 ^ (n + 1) := by positivity
  have h2nQ : (2 : ℚ) ^ n ≠ 0 := by positivity
  have hs : (180 : ℚ) / 2 ^ n = 2 * (180 / 2 ^ (n + 1)) := by
    field_simp
    ring
  have h180 : (2 : ℚ) ^ (n + 1) * (180 / 2 ^ (n + 1)) = 180 := by field_simp
  have hp2 : (2 : ℕ) ^ (n + 1) = 2 ^ n + 2 ^ n := by rw [pow_succ]; omega
  have h1le : (1 : ℕ) ≤ 2 ^ n := Nat.one_le_two_pow
  rcases hA with rfl | rfl <;> rcases hd with rfl | rfl
  · -- west hemisphere, step west: stays west, needs j ≥ 1
    have hj1 : 1 ≤ j := by
      by_contra h
      have h0 : j = 0 := by omega
      subst h0
      rw [hc, hs] at hlo
      push_cast at hlo
      linarith
    refine ⟨j - 1, -180, by omega, Or.inl rfl, ?_⟩
    rw [hc, hs, Nat.cast_sub hj1]
    push_cast
    ring
  · -- west hemisphere, step east: crosses the meridian from the last cell
    by_cases hj1 : j + 1 < 2 ^ n
    · refine ⟨j + 1, -180, hj1, Or.inl rfl, ?_⟩
      rw [hc, hs]
      push_cast
      ring
    · have hjeq : j = 2 ^ n - 1 := by omega
      have hjQ : (j : ℚ) = 2 ^ n - 1 := by
        rw [hjeq, Nat.cast_sub h1le]
        push_cast
        ring
      refine ⟨0, 0, by positivity, Or.inr rfl, ?_⟩
      rw [hc, hs, hjQ]
      push_cast
      field_simp
      ring
  · -- east hemisphere, step west: crosses the meridian from the first cell
    by_cases hj1 : 1 ≤ j
    · refine ⟨j - 1, 0, by omega, Or.inr rfl, ?_⟩
      rw [hc, hs, Nat.cast_sub hj1]
      push_cast
      ring
    · have h0 : j = 0 := by omega
      subst h0
      refine ⟨2 ^ n - 1, -180, by omega, Or.inl rfl, ?_⟩
      rw [hc, hs, Nat.cast_sub h1le]
      push_cast
      field_simp
      ring
  · -- east hemisphere, step east: stays east, needs j + 1 < 2^n
    have hj1 : j + 1 < 2 ^ n := by
      rw [hc, hs] at hhi
      have hkey : (2 * (j : ℚ) + 3) * (180 / 2 ^ (n + 1)) <
          (2 : ℚ) ^ (n + 1) * (180 / 2 ^ (n + 1)) := by
        rw [h180]
        linarith
      have hQ := (mul_lt_mul_right hpos).mp hkey
      have hN : 2 * j + 3 < 2 ^ (n + 1) := by exact_mod_cast hQ
      omega
    refine ⟨j + 1, 0, hj1, Or.inr rfl, ?_⟩
    rw [hc, hs]
    push_cast
    ring

end Geoprint


namespace Geoprint

/-- `adjacent` returns `True` whenever the two codes decode to centers
offset by exactly the spacing along one axis (other axis equal) or along
both axes. -/
theorem adjacent_of_offsets {C h : List Char} {clat clon a b : ℚ}
    (hlen3 : 3 ≤ C.length) (hleneq : C.length = h.length)
    (hdC : decode C = some (clat, clon))
    (hdh : decode h = some (clat + a, clon + b))
    (hcases : (|a| = 180 / (2 : ℚ) ^ ((C.length : ℤ) - 1) ∧ b = 0) ∨
      (a = 0 ∧ |b| = 180 / (2 : ℚ) ^ ((C.length : ℤ) - 1)) ∨
      (|a| = 180 / (2 : ℚ) ^ ((C.length : ℤ) - 1) ∧
        |b| = 180 / (2 : ℚ) ^ ((C.length : ℤ) - 1)))
    (hnz : ¬ (a = 0 ∧ b = 0)) :
    adjacent C h = .returns true := by
  have hne : C ≠ h := by
    intro heq
    rw [← heq, hdC, Option.some.injEq, Prod.mk.injEq] at hdh
    exact hnz ⟨by linarith [hdh.1], by linarith [hdh.2]⟩
  rw [adjacent, if_neg hne,
    if_neg (by omega : ¬ min C.length h.length < 3),
    if_neg (by omega : ¬ C.length ≠ h.length), hdC, hdh]
  have habs1 : |clat - (clat + a)| = |a| := by
    rw [show clat - (clat + a) = -a from by ring, abs_neg]
  have habs2 : |clon - (clon + b)| = |b| := by
    rw [show clon - (clon + b) = -b from by ring, abs_neg]
  have hP : (|clat - (clat + a)| = 180 / (2 : ℚ) ^ ((C.length : ℤ) - 1) ∧
        clon = clon + b) ∨
      (|clon - (clon + b)| = 180 / (2 : ℚ) ^ ((C.length : ℤ) - 1) ∧
        clat = clat + a) ∨
      (|clat - (clat + a)| = 180 / (2 : ℚ) ^ ((C.length : ℤ) - 1) ∧
        |clon - (clon + b)| = 180 / (2 : ℚ) ^ ((C.length : ℤ) - 1)) := by
    rcases hcases with ⟨ha, hb⟩ | ⟨ha, hb⟩ | ⟨ha, hb⟩
    · exact Or.inl ⟨by rw [habs1, ha], by rw [hb, add_zero]⟩
    · exact Or.inr (Or.inl ⟨by rw [habs2, hb], by rw [ha, add_zero]⟩)
    · exact Or.inr (Or.inr ⟨by rw [habs1, ha], by rw [habs2, hb]⟩)
  exact congrArg AdjacentResult.returns (decide_eq_true hP)

/-- Any of the eight spacing-offset neighbors of an interior grid center is
adjacent to it. -/
theorem neighbor_adjacent {C : List Char} {clat clon : ℚ} {n i j : ℕ}
    {A : ℚ} (hd : decode C = some (clat, clon)) (hlen3 : 3 ≤ C.length)
    (hlen : C.length = n + 1) (hi : i < 2 ^ n) (hj : j < 2 ^ n)
    (hA : A = -180 ∨ A = 0)
    (hclat : clat = -90 + (2 * (i : ℚ) + 1) * (180 / 2 ^ (n + 1)))
    (hclon : clon = A + (2 * (j : ℚ) + 1) * (180 / 2 ^ (n + 1)))
    (hlat_lo : -90 < clat - 180 / 2 ^ n) (hlat_hi : clat + 180 / 2 ^ n < 90)
    (hlon_lo : -180 < clon - 180 / 2 ^ n) (hlon_hi : clon + 180 / 2 ^ n < 180)
    (dlat dlon : ℚ) (hdlat : dlat = 0 ∨ dlat = -1 ∨ dlat = 1)
    (hdlon : dlon = 0 ∨ dlon = -1 ∨ dlon = 1)
    (hnz : ¬ (dlat = 0 ∧ dlon = 0)) :
    adjacent C (encode (clat + dlat * (180 / 2 ^ n))
      (clon + dlon * (180 / 2 ^ n)) C.length) = .returns true := by
  have hspos : (0 : ℚ) < 180 / 2 ^ n := by positivity
  have hlat' : ∃ i' : ℕ, i' < 2 ^ n ∧ clat + dlat * (180 / 2 ^ n) =
      -90 + (2 * (i' : ℚ) + 1) * (180 / 2 ^ (n + 1)) := by
    rcases hdlat with rfl | hdl
    · exact ⟨i, hi, by rw [hclat]; ring⟩
    · exact lat_center_shift hi hclat hlat_lo hlat_hi hdl
  have hlon' : ∃ (j' : ℕ) (A' : ℚ), j' < 2 ^ n ∧ (A' = -180 ∨ A' = 0) ∧
      clon + dlon * (180 / 2 ^ n) =
        A' + (2 * (j' : ℚ) + 1) * (180 / 2 ^ (n + 1)) := by
    rcases hdlon with rfl | hdl
    · exact ⟨j, A, hj, hA, by rw [hclon]; ring⟩
    · exact lon_center_shift hj hA hclon hlon_lo hlon_hi hdl
  obtain ⟨i', hi', hlatc⟩ := hlat'
  obtain ⟨j', A', hj', hA', hlonc⟩ := hlon'
  have hdh := encode_center_roundtrip n i' j' _ _ A' hi' hj' hA' hlatc hlonc
  rw [← hlen] at hdh
  have hleneq : C.length = (encode (clat + dlat * (180 / 2 ^ n))
      (clon + dlon * (180 / 2 ^ n)) C.length).length :=
    (encode_length _ _ (by omega)).symm
  have hsp : (180 : ℚ) / (2 : ℚ) ^ ((C.length : ℤ) - 1) = 180 / 2 ^ n :=
    spacing_eq hlen
  have habs : ∀ d : ℚ, d = -1 ∨ d = 1 → |d * (180 / 2 ^ n)| = 180 / 2 ^ n := by
    rintro d (rfl | rfl)
    · rw [neg_one_mul, abs_neg, abs_of_pos hspos]
    · rw [one_mul, abs_of_pos hspos]
  apply adjacent_of_offsets hlen3 hleneq hd hdh
  · rw [hsp]
    rcases hdlat with rfl | hdl <;> rcases hdlon with rfl | hdl2
    · exact absurd ⟨rfl, rfl⟩ hnz
    · exact Or.inr (Or.inl ⟨zero_mul _, habs _ hdl2⟩)
    · exact Or.inl ⟨habs _ hdl, zero_mul _⟩
    · exact Or.inr (Or.inr ⟨habs _ hdl, habs _ hdl2⟩)
  · rintro ⟨h1, h2⟩
    apply hnz
    constructor
    · rcases mul_eq_zero.mp h1 with h | h
      · exact h
      · exact absurd h (ne_of_gt hspos)
    · rcases mul_eq_zero.mp h2 with h | h
      · exact h
      · exact absurd h (ne_of_gt hspos)

end Geoprint

/-! ## Claims about the geoprint codec -/

section GeoprintClaims

open Geoprint

/-- C3 counterexample: at the south pole the decoded latitude differs from
the input by exactly `error(code)`, not strictly less:
`decode(encode(-90, 0, 2)) = (-45, 45)` and `error("eg") = 45`, and
`|(-45) - (-90)| = 45` is not `< 45`. -/
theorem claim_C3_counterexample :
    decode (encode (-90) 0 2) = some (-45, 45) ∧
      ¬ |(-45 : ℚ) - (-90)| < error (encode (-90) 0 2) := by
  have he : encode (-90) 0 2 = ['e', 'g'] := by
    norm_num [encode, encodeAux, alphabet, List.getD]
  constructor
  · rw [he, decode, decodeIvls_e, decodeAux_cons_g, decodeAux_nil,
      Option.map_some']
    norm_num [narrow]
  · rw [he, error]
    norm_num

/-- C3, amended: for every latitude in [-90, 90], longitude in [-180, 180]
and precision P ≥ 1, the decoded point differs from the input by AT MOST
`error(code) = 90 * 2^-(len(code)-1)` on each axis (the bound is attained,
e.g. at the poles, so `≤` cannot be sharpened to `<`; the module's own
doctest also uses `<=`). -/
theorem claim_C3_roundtrip_error (lat lon : ℚ) (P : ℕ)
    (h1 : -90 ≤ lat) (h2 : lat ≤ 90) (h3 : -180 ≤ lon) (h4 : lon ≤ 180)
    (hP : 1 ≤ P) :
    ∃ dlat dlon, decode (encode lat lon P) = some (dlat, dlon) ∧
      |dlat - lat| ≤ error (encode lat lon P) ∧
      |dlon - lon| ≤ error (encode lat lon P) := by
  have h2n : (2 : ℚ) ^ (P - 1) ≠ 0 := by positivity
  obtain ⟨hm1, hm2⟩ := (lonStart_mem h3 h4)
  obtain ⟨hl1, hl2⟩ :=
    narrows_encBits_mem lon (P - 1) (lonStart lon) hm1 hm2
  obtain ⟨hk1, hk2⟩ :=
    narrows_encBits_mem lat (P - 1) ⟨-90, 90⟩ h1 h2
  refine ⟨midpt (narrows ⟨-90, 90⟩ (encBits lat ⟨-90, 90⟩ (P - 1))),
    midpt (narrows (lonStart lon) (encBits lon (lonStart lon) (P - 1))),
    ?_, ?_, ?_⟩
  · rw [decode, decodeIvls_encode, Option.map_some']
    rfl
  · rw [error_encode _ _ hP]
    have hw := narrows_width (encBits lat ⟨-90, 90⟩ (P - 1)) ⟨-90, 90⟩
    rw [encBits_length] at hw
    have hb := abs_midpt_sub_le hk1 hk2
    rw [hw] at hb
    refine le_trans hb (le_of_eq ?_)
    show ((90 : ℚ) - -90) / 2 ^ (P - 1) / 2 = 90 / 2 ^ (P - 1)
    field_simp
    ring
  · rw [error_encode _ _ hP]
    have hw := narrows_width (encBits lon (lonStart lon) (P - 1)) (lonStart lon)
    rw [encBits_length, lonStart_wide] at hw
    have hb := abs_midpt_sub_le hl1 hl2
    rw [hw] at hb
    refine le_trans hb (le_of_eq ?_)
    show (180 : ℚ) / 2 ^ (P - 1) / 2 = 90 / 2 ^ (P - 1)
    field_simp
    ring

/-- Witness for `claim_C3_roundtrip_error` at the origin with precision 1. -/
theorem claim_C3_roundtrip_error_witness :
    ((-90 : ℚ) ≤ 0 ∧ (0 : ℚ) ≤ 90 ∧ (-180 : ℚ) ≤ 0 ∧ (0 : ℚ) ≤ 180 ∧ 1 ≤ 1) ∧
      ∃ dlat dlon, decode (encode 0 0 1) = some (dlat, dlon) ∧
        |dlat - 0| ≤ error (encode 0 0 1) ∧ |dlon - 0| ≤ error (encode 0 0 1) :=
  ⟨⟨by norm_num, by norm_num, by norm_num, by norm_num, le_refl 1⟩,
    claim_C3_roundtrip_error 0 0 1 (by norm_num) (by norm_num) (by norm_num)
      (by norm_num) (le_refl 1)⟩

/-- C9: the concrete vector — `encode(7.0625, -95.677068)` at the default
precision 22 is exactly `"watttatcttttgctacgaagt"` — and the hemisphere
rule: the first character of every code is `'w'` when the longitude is
negative and `'e'` otherwise. -/
theorem claim_C9_vector_and_hemisphere :
    encode 7.0625 (-95.677068) 22 =
      ['w', 'a', 't', 't', 't', 'a', 't', 'c', 't', 't', 't', 't',
        'g', 'c', 't', 'a', 'c', 'g', 'a', 'a', 'g', 't'] ∧
    ∀ (latitude longitude : ℚ) (precision : ℕ),
      (encode latitude longitude precision).head? =
        some (if longitude < 0 then 'w' else 'e') := by
  constructor
  · norm_num [encode, encodeAux, alphabet, List.getD]
  · intro lat lon P
    unfold encode
    by_cases hl : lon < 0 <;> simp [hl]

/-- C10: `decode` succeeds exactly on the stated domain — a nonempty code
whose first character is `'w'` or `'e'` and whose remaining characters come
from the `"gatc"` alphabet.  (A foreign first character leaves the
longitude interval unbound, a foreign later character fails the
`decodemap` lookup; both are modelled as the `none` result.) -/
theorem claim_C10_decode_domain (code : List Char) :
    (decode code).isSome ↔
      ∃ c cs, code = c :: cs ∧ (c = 'w' ∨ c = 'e') ∧
        ∀ x ∈ cs, x ∈ alphabet := by
  have hmap : ∀ (o : Option (interval × interval)),
      (Option.map (fun r : interval × interval =>
        ((r.2.min + r.2.max) / 2, (r.1.min + r.1.max) / 2)) o).isSome =
        o.isSome := by
    intro o; cases o <;> rfl
  cases code with
  | nil => simp [decode, decodeIvls]
  | cons c cs =>
    rw [decode, hmap]
    by_cases hw : c = 'w'
    · subst hw
      rw [show decodeIvls ('w' :: cs) = decodeAux ⟨-180, 0⟩ ⟨-90, 90⟩ cs
          from rfl]
      rw [decodeAux_isSome_iff]
      constructor
      · intro h
        exact ⟨'w', cs, rfl, Or.inl rfl, h⟩
      · rintro ⟨c', cs', heq, _, hall⟩
        obtain ⟨h1, h2⟩ := List.cons.injEq .. ▸ heq
        · exact h2 ▸ hall
    · by_cases he : c = 'e'
      · subst he
        rw [show decodeIvls ('e' :: cs) = decodeAux ⟨0, 180⟩ ⟨-90, 90⟩ cs
            from rfl]
        rw [decodeAux_isSome_iff]
        constructor
        · intro h
          exact ⟨'e', cs, rfl, Or.inr rfl, h⟩
        · rintro ⟨c', cs', heq, _, hall⟩
          obtain ⟨h1, h2⟩ := List.cons.injEq .. ▸ heq
          · exact h2 ▸ hall
      · rw [show decodeIvls (c :: cs) =
            if c = 'w' then decodeAux ⟨-180, 0⟩ ⟨-90, 90⟩ cs
            else if c = 'e' then decodeAux ⟨0, 180⟩ ⟨-90, 90⟩ cs
            else none from rfl]
        rw [if_neg hw, if_neg he]
        simp only [Option.isSome_none, Bool.false_eq_true, false_iff]
        rintro ⟨c', cs', heq, hor, _⟩
        obtain ⟨h1, h2⟩ := List.cons.injEq .. ▸ heq
        rcases hor with h | h <;> subst h1 <;> simp_all

/-- C5: truncating a code produced at precision N to M < N characters
yields exactly the code encode would produce at precision M for the same
point, and the bounding box decoded from the prefix strictly contains the
bounding box decoded from the full code: the intervals are nested and the
full-precision widths are strictly smaller on both axes. -/
theorem claim_C5_prefix_and_box (lat lon : ℚ) (N M : ℕ)
    (hM : 1 ≤ M) (hMN : M < N) :
    (encode lat lon N).take M = encode lat lon M ∧
    ∃ loM laM loN laN,
      decodeIvls ((encode lat lon N).take M) = some (loM, laM) ∧
      decodeIvls (encode lat lon N) = some (loN, laN) ∧
      (loM.min ≤ loN.min ∧ loN.max ≤ loM.max ∧
        loN.max - loN.min < loM.max - loM.min) ∧
      (laM.min ≤ laN.min ∧ laN.max ≤ laM.max ∧
        laN.max - laN.min < laM.max - laM.min) := by
  have hlonw := lonStart_wide lon
  have hlonle : (lonStart lon).min ≤ (lonStart lon).max := by linarith
  have htake : (encode lat lon N).take M = encode lat lon M := by
    obtain ⟨m, rfl⟩ : ∃ m, M = m + 1 := ⟨M - 1, by omega⟩
    rw [encode_eq lat lon N, encode_eq lat lon (m + 1), List.take_succ_cons,
      zipChars, List.take_zipWith, ← zipChars]
    rw [encBits_take, encBits_take]
    rw [show min m (N - 1) = m from by omega]
    rw [show m + 1 - 1 = m from by omega]
  refine ⟨htake, ?_⟩
  rw [htake, decodeIvls_encode, decodeIvls_encode]
  refine ⟨_, _, _, _, rfl, rfl, ?_, ?_⟩
  · have hsplit : N - 1 = (M - 1) + (N - M) := by omega
    rw [hsplit, encBits_append, narrows_append]
    have hsubM := narrows_subset (encBits lon (lonStart lon) (M - 1))
      (lonStart lon) hlonle
    have hsub := narrows_subset
      (encBits lon (narrows (lonStart lon) (encBits lon (lonStart lon) (M - 1)))
        (N - M))
      (narrows (lonStart lon) (encBits lon (lonStart lon) (M - 1))) hsubM.2.2
    refine ⟨hsub.1, hsub.2.1, ?_⟩
    have hwM := narrows_width (encBits lon (lonStart lon) (M - 1)) (lonStart lon)
    have hwN := narrows_width
      (encBits lon (narrows (lonStart lon) (encBits lon (lonStart lon) (M - 1)))
        (N - M))
      (narrows (lonStart lon) (encBits lon (lonStart lon) (M - 1)))
    rw [encBits_length] at hwM hwN
    rw [hwN, hwM, hlonw]
    have h1 : (0 : ℚ) < 180 / 2 ^ (M - 1) := by positivity
    have h2 : (1 : ℚ) < 2 ^ (N - M) := by
      have h3 : (2 : ℚ) ^ 1 ≤ 2 ^ (N - M) := by
        apply pow_le_pow_right (by norm_num)
        omega
      have h4 : (1 : ℚ) < 2 ^ 1 := by norm_num
      linarith
    calc (180 : ℚ) / 2 ^ (M - 1) / 2 ^ (N - M)
        < 180 / 2 ^ (M - 1) / 1 :=
          div_lt_div_of_pos_left h1 (by norm_num) h2
      _ = 180 / 2 ^ (M - 1) := div_one _
  · have hsplit : N - 1 = (M - 1) + (N - M) := by omega
    rw [hsplit, encBits_append, narrows_append]
    have hle : ((⟨-90, 90⟩ : interval)).min ≤ ((⟨-90, 90⟩ : interval)).max := by
      norm_num
    have hsubM := narrows_subset (encBits lat ⟨-90, 90⟩ (M - 1)) ⟨-90, 90⟩ hle
    have hsub := narrows_subset
      (encBits lat (narrows ⟨-90, 90⟩ (encBits lat ⟨-90, 90⟩ (M - 1))) (N - M))
      (narrows ⟨-90, 90⟩ (encBits lat ⟨-90, 90⟩ (M - 1))) hsubM.2.2
    refine ⟨hsub.1, hsub.2.1, ?_⟩
    have hwM := narrows_width (encBits lat ⟨-90, 90⟩ (M - 1)) ⟨-90, 90⟩
    have hwN := narrows_width
      (encBits lat (narrows ⟨-90, 90⟩ (encBits lat ⟨-90, 90⟩ (M - 1))) (N - M))
      (narrows ⟨-90, 90⟩ (encBits lat ⟨-90, 90⟩ (M - 1)))
    rw [encBits_length] at hwM hwN
    rw [hwN, hwM]
    have hwide : ((⟨-90, 90⟩ : interval)).max - ((⟨-90, 90⟩ : interval)).min =
        (180 : ℚ) := by norm_num
    rw [hwide]
    have h1 : (0 : ℚ) < 180 / 2 ^ (M - 1) := by positivity
    have h2 : (1 : ℚ) < 2 ^ (N - M) := by
      have h3 : (2 : ℚ) ^ 1 ≤ 2 ^ (N - M) := by
        apply pow_le_pow_right (by norm_num)
        omega
      have h4 : (1 : ℚ) < 2 ^ 1 := by norm_num
      linarith
    calc (180 : ℚ) / 2 ^ (M - 1) / 2 ^ (N - M)
        < 180 / 2 ^ (M - 1) / 1 :=
          div_lt_div_of_pos_left h1 (by norm_num) h2
      _ = 180 / 2 ^ (M - 1) := div_one _

/-- Witness for `claim_C5_prefix_and_box` at the origin with `M = 1`,
`N = 2`. -/
theorem claim_C5_prefix_and_box_witness :
    (1 ≤ 1 ∧ 1 < 2) ∧
    ((encode 0 0 2).take 1 = encode 0 0 1 ∧
      ∃ loM laM loN laN,
        decodeIvls ((encode 0 0 2).take 1) = some (loM, laM) ∧
        decodeIvls (encode 0 0 2) = some (loN, laN) ∧
        (loM.min ≤ loN.min ∧ loN.max ≤ loM.max ∧
          loN.max - loN.min < loM.max - loM.min) ∧
        (laM.min ≤ laN.min ∧ laN.max ≤ laM.max ∧
          laN.max - laN.min < laM.max - laM.min)) :=
  ⟨⟨le_refl 1, by omega⟩, claim_C5_prefix_and_box 0 0 2 1 (le_refl 1) (by omega)⟩

/-- C7 counterexample: two EQUAL codes of length 1 (fewer than 3
characters) do not raise the precision-mismatch error — the `first ==
second` early return fires first and `adjacent` returns `False`. -/
theorem claim_C7_counterexample :
    adjacent ['w'] ['w'] = .returns false ∧ (['w'] : List Char).length < 3 := by
  constructor <;> decide

/-- C7, amended: equal codes always return `False` (whatever their length,
without raising); for UNEQUAL codes, `adjacent` raises the
precision-mismatch `TypeError` whenever either code is shorter than 3
characters or the lengths differ. -/
theorem claim_C7_adjacent_errors (a b : List Char) :
    adjacent a a = .returns false ∧
      (a ≠ b → (min a.length b.length < 3 ∨ a.length ≠ b.length) →
        adjacent a b = .raisesPrecisionMismatch) := by
  constructor
  · rw [adjacent, if_pos rfl]
  · intro hne hcond
    rw [adjacent, if_neg hne]
    by_cases hm : min a.length b.length < 3
    · rw [if_pos hm]
    · rw [if_neg hm]
      rcases hcond with h | h
      · exact absurd h hm
      · rw [if_pos h]

/-- Witness for `claim_C7_adjacent_errors` at `a = "w"`, `b = "we"`. -/
theorem claim_C7_adjacent_errors_witness :
    ((['w'] : List Char) ≠ ['w', 'e'] ∧
        (min (['w'] : List Char).length (['w', 'e'] : List Char).length < 3 ∨
          (['w'] : List Char).length ≠ (['w', 'e'] : List Char).length)) ∧
      adjacent ['w'] ['w'] = .returns false ∧
      adjacent ['w'] ['w', 'e'] = .raisesPrecisionMismatch :=
  ⟨⟨by decide, by decide⟩, (claim_C7_adjacent_errors ['w'] ['w', 'e']).1,
    (claim_C7_adjacent_errors ['w'] ['w', 'e']).2 (by decide) (by decide)⟩

end GeoprintClaims

section NeighborClaims

open Geoprint

/-- C6 counterexample: `"eaa"` is a valid geoprint of length 3 (a cell of
the top latitude row); its neighbor set contains the pair
`("E", "eaa")` — the out-of-range point re-encodes to the cell itself —
and `adjacent("eaa", "eaa")` returns `False`, so not every returned
neighbor satisfies the adjacency predicate. -/
theorem claim_C6_counterexample :
    ∃ l, neighbors ['e', 'a', 'a'] = some l ∧ ("E", ['e', 'a', 'a']) ∈ l ∧
      adjacent ['e', 'a', 'a'] ['e', 'a', 'a'] = .returns false := by
  have hd : decode ['e', 'a', 'a'] = some (67.5, 22.5) := by
    rw [decode, decodeIvls_e, decodeAux_cons_a, decodeAux_cons_a,
      decodeAux_nil, Option.map_some']
    norm_num [narrow]
  have hnb : neighbors ['e', 'a', 'a'] = some
      [("N", ['e', 'a', 'c']), ("S", ['w', 'c', 'c']), ("E", ['e', 'a', 'a']),
        ("NE", ['e', 'a', 'c']), ("SE", ['w', 'c', 'c']),
        ("W", ['e', 'a', 'g']), ("NW", ['e', 'a', 't']),
        ("SW", ['w', 'c', 't'])] := by
    rw [neighbors, hd, Option.map_some']
    norm_num [encode, encodeAux, alphabet, List.getD]
  refine ⟨_, hnb, by simp, ?_⟩
  rw [adjacent, if_pos rfl]

/-- C6, amended: for every valid geoprint `C` of length ≥ 3 whose decoded
center is at least one spacing away from the poles and from the ±180°
date line on each axis (so that all eight offset points stay in range —
crossing the 0° meridian into the other hemisphere is fine), every code
returned by `neighbors(C)` satisfies `adjacent(C, neighbor) = True`. -/
theorem claim_C6_neighbors_adjacent (C : List Char) (clat clon : ℚ)
    (hd : decode C = some (clat, clon)) (hlen3 : 3 ≤ C.length)
    (hlat_lo : -90 < clat - 180 / (2 : ℚ) ^ ((C.length : ℤ) - 1))
    (hlat_hi : clat + 180 / (2 : ℚ) ^ ((C.length : ℤ) - 1) < 90)
    (hlon_lo : -180 < clon - 180 / (2 : ℚ) ^ ((C.length : ℤ) - 1))
    (hlon_hi : clon + 180 / (2 : ℚ) ^ ((C.length : ℤ) - 1) < 180) :
    ∃ l, neighbors C = some l ∧
      ∀ pr ∈ l, adjacent C pr.2 = AdjacentResult.returns true := by
  obtain ⟨n, i, j, A, hlen, hi, hj, hA, hclat, hclon⟩ := decode_center_form hd
  have hsp : (180 : ℚ) / (2 : ℚ) ^ ((C.length : ℤ) - 1) = 180 / 2 ^ n :=
    spacing_eq hlen
  rw [hsp] at hlat_lo hlat_hi hlon_lo hlon_hi
  have hnb : neighbors C = some
      [("N", encode (clat + 0 * (180 / (2 : ℚ) ^ ((C.length : ℤ) - 1)))
          (clon + 1 * (180 / (2 : ℚ) ^ ((C.length : ℤ) - 1))) C.length),
        ("S", encode (clat + 0 * (180 / (2 : ℚ) ^ ((C.length : ℤ) - 1)))
          (clon + (-1) * (180 / (2 : ℚ) ^ ((C.length : ℤ) - 1))) C.length),
        ("E", encode (clat + 1 * (180 / (2 : ℚ) ^ ((C.length : ℤ) - 1)))
          (clon + 0 * (180 / (2 : ℚ) ^ ((C.length : ℤ) - 1))) C.length),
        ("NE", encode (clat + 1 * (180 / (2 : ℚ) ^ ((C.length : ℤ) - 1)))
          (clon + 1 * (180 / (2 : ℚ) ^ ((C.length : ℤ) - 1))) C.length),
        ("SE", encode (clat + 1 * (180 / (2 : ℚ) ^ ((C.length : ℤ) - 1)))
          (clon + (-1) * (180 / (2 : ℚ) ^ ((C.length : ℤ) - 1))) C.length),
        ("W", encode (clat + (-1) * (180 / (2 : ℚ) ^ ((C.length : ℤ) - 1)))
          (clon + 0 * (180 / (2 : ℚ) ^ ((C.length : ℤ) - 1))) C.length),
        ("NW", encode (clat + (-1) * (180 / (2 : ℚ) ^ ((C.length : ℤ) - 1)))
          (clon + 1 * (180 / (2 : ℚ) ^ ((C.length : ℤ) - 1))) C.length),
        ("SW", encode (clat + (-1) * (180 / (2 : ℚ) ^ ((C.length : ℤ) - 1)))
          (clon + (-1) * (180 / (2 : ℚ) ^ ((C.length : ℤ) - 1))) C.length)] := by
    rw [neighbors, hd, Option.map_some']
  refine ⟨_, hnb, ?_⟩
  intro pr hpr
  simp only [List.mem_cons, List.not_mem_nil, or_false] at hpr
  have key := fun (dlat dlon : ℚ) h1 h2 h3 =>
    neighbor_adjacent hd hlen3 hlen hi hj hA hclat hclon hlat_lo hlat_hi
      hlon_lo hlon_hi dlat dlon h1 h2 h3
  rcases hpr with rfl | rfl | rfl | rfl | rfl | rfl | rfl | rfl
  · rw [hsp]
    exact key 0 1 (Or.inl rfl) (Or.inr (Or.inr rfl)) (by norm_num)
  · rw [hsp]
    exact key 0 (-1) (Or.inl rfl) (Or.inr (Or.inl rfl)) (by norm_num)
  · rw [hsp]
    exact key 1 0 (Or.inr (Or.inr rfl)) (Or.inl rfl) (by norm_num)
  · rw [hsp]
    exact key 1 1 (Or.inr (Or.inr rfl)) (Or.inr (Or.inr rfl)) (by norm_num)
  · rw [hsp]
    exact key 1 (-1) (Or.inr (Or.inr rfl)) (Or.inr (Or.inl rfl)) (by norm_num)
  · rw [hsp]
    exact key (-1) 0 (Or.inr (Or.inl rfl)) (Or.inl rfl) (by norm_num)
  · rw [hsp]
    exact key (-1) 1 (Or.inr (Or.inl rfl)) (Or.inr (Or.inr rfl)) (by norm_num)
  · rw [hsp]
    exact key (-1) (-1) (Or.inr (Or.inl rfl)) (Or.inr (Or.inl rfl)) (by norm_num)

/-- Witness for `claim_C6_neighbors_adjacent` at the interior code
`"eag"`. -/
theorem claim_C6_neighbors_adjacent_witness :
    (decode ['e', 'a', 'g'] = some (22.5, 22.5) ∧
        3 ≤ (['e', 'a', 'g'] : List Char).length ∧
        -90 < (22.5 : ℚ) - 180 / (2 : ℚ) ^ (((['e', 'a', 'g'] : List Char).length : ℤ) - 1) ∧
        (22.5 : ℚ) + 180 / (2 : ℚ) ^ (((['e', 'a', 'g'] : List Char).length : ℤ) - 1) < 90 ∧
        -180 < (22.5 : ℚ) - 180 / (2 : ℚ) ^ (((['e', 'a', 'g'] : List Char).length : ℤ) - 1) ∧
        (22.5 : ℚ) + 180 / (2 : ℚ) ^ (((['e', 'a', 'g'] : List Char).length : ℤ) - 1) < 180) ∧
      ∃ l, neighbors ['e', 'a', 'g'] = some l ∧
        ∀ pr ∈ l, adjacent ['e', 'a', 'g'] pr.2 = AdjacentResult.returns true := by
  have hd : decode ['e', 'a', 'g'] = some (22.5, 22.5) := by
    rw [decode, decodeIvls_e, decodeAux_cons_a, decodeAux_cons_g,
      decodeAux_nil, Option.map_some']
    norm_num [narrow]
  refine ⟨⟨hd, by norm_num, by norm_num, by norm_num, by norm_num, by norm_num⟩, ?_⟩
  exact claim_C6_neighbors_adjacent ['e', 'a', 'g'] 22.5 22.5 hd (by norm_num)
    (by norm_num) (by norm_num) (by norm_num) (by norm_num)

end NeighborClaims
